import Mathlib

/-!
Verification of the compiler pipeline (lexer, semantic analyzer, IR builder,
IR optimizer, bytecode peephole pass, and virtual machine) against its
natural-language specification.  Each Python pass is embedded shallowly as an
executable Lean function; theorems at the end settle the spec claims.
-/

namespace Compiler

/- ### Shared preliminaries

`dictSet`/`dictGet` model a Python `dict` as an insertion-ordered association
list: assignment overwrites in place, lookup finds the (unique live) binding.
`parseNum` models `float(x)` succeeding on the decimal literal forms the
pipeline produces (optional sign, digits, optional fractional part); values are
embedded as exact rationals. -/

def dictSet {α : Type} (m : List (String × α)) (k : String) (v : α) :
    List (String × α) :=
  match m with
  | [] => [(k, v)]
  | (k', v') :: rest => if k' = k then (k', v) :: rest else (k', v') :: dictSet rest k v

def dictGet {α : Type} (m : List (String × α)) (k : String) : Option α :=
  match m with
  | [] => none
  | (k', v) :: rest => if k' = k then some v else dictGet rest k

def digitsVal (cs : List Char) : Nat :=
  cs.foldl (fun acc c => 10 * acc + (c.toNat - '0'.toNat)) 0

/-- Models Python `float(x)` on the decimal literal forms that occur as IR /
bytecode operands: optional `+`/`-` sign, digits, optionally `.` and digits
(at least one digit overall).  Exotic inputs accepted by Python (`"inf"`,
exponents, surrounding whitespace) never occur in this pipeline and are
rejected here. -/
def parseNum (s : String) : Option Rat :=
  let cs := s.toList
  let signed : Bool × List Char :=
    match cs with
    | '-' :: r => (true, r)
    | '+' :: r => (false, r)
    | r => (false, r)
  let neg := signed.1
  let body := signed.2
  let ip := body.takeWhile Char.isDigit
  let rest := body.dropWhile Char.isDigit
  let signedVal : Rat → Rat := fun v => if neg then -v else v
  match rest with
  | [] => if ip.isEmpty then none else some (signedVal (digitsVal ip : Rat))
  | '.' :: fr =>
    if fr.all Char.isDigit && !(ip.isEmpty && fr.isEmpty) then
      some (signedVal
        ((digitsVal ip : Rat) + (digitsVal fr : Rat) / ((10 : Rat) ^ fr.length)))
    else none
  | _ => none

/-- `TEMP_RE = ^t[0-9]+$` from `optimizer.py`. -/
def is_temp (name : String) : Bool :=
  match name.toList with
  | 't' :: ds => !ds.isEmpty && ds.all Char.isDigit
  | _ => false

/-- `is_const` from `optimizer.py`: the string parses as a number (the
`x in ('0','1')` fallback is subsumed, since those strings parse). -/
def is_const (x : String) : Bool := (parseNum x).isSome

/- ### Bytecode instructions (`codegen.py`) -/

inductive BCInstr where
  | BLabel (name : String)
  | BJmp (label : String)
  | BIfFalse (cond label : String)
  | BMov (dst src : String)
  | BUnary (dst op src : String)
  | BBin (dst op left right : String)
  | BPrint (value : String)
  | BRet (value : Option String)
  | BFunc (name : String) (params : List String)
  | BEndFunc (name : String)
  | BCall (dst : Option String) (name : String) (args : List String)
deriving DecidableEq, Repr

namespace Peephole

open BCInstr

/-- Not a self-move: the kept instructions of `remove_mov_self`. -/
def movOk : BCInstr → Bool
  | BMov d s => !(d = s)
  | _ => true

/-- `remove_mov_self` from `peephole.py`. -/
def remove_mov_self (code : List BCInstr) : List BCInstr :=
  code.filter movOk

/-- `remove_jmp_to_next_label` from `peephole.py`: drop `JMP L` when the
immediately following instruction is `LABEL L`. -/
def remove_jmp_to_next_label : List BCInstr → List BCInstr
  | [] => []
  | BJmp l :: BLabel n :: rest =>
    if n = l then remove_jmp_to_next_label (BLabel n :: rest)
    else BJmp l :: remove_jmp_to_next_label (BLabel n :: rest)
  | ins :: rest => ins :: remove_jmp_to_next_label rest

/-- The output-and-rename fold of `collapse_consecutive_labels`: walk the code
tracking the previous label (if the previous instruction was a kept label);
a label preceded by a label is dropped and recorded in the rename map
(`label_map[ins.name] = prev_label`, later assignments shadowing earlier
ones, hence the prepend). -/
def collapseGo : List BCInstr → Option String → List (String × String) →
    List BCInstr × List (String × String)
  | [], _, m => ([], m)
  | BLabel n :: rest, prev, m =>
    match prev with
    | none =>
      let r := collapseGo rest (some n) m
      (BLabel n :: r.1, r.2)
    | some p => collapseGo rest (some p) ((n, p) :: m)
  | ins :: rest, _, m =>
    let r := collapseGo rest none m
    (ins :: r.1, r.2)

/-- The `remap` chain-walk (`while name in label_map: name = label_map[name]`).
The Python loop diverges on a cyclic map; every map produced by `collapseGo`
whose chains are acyclic is fully resolved within `m.length` steps, so the
fuel is exact on all terminating runs of the source. -/
def remapFuel (m : List (String × String)) : Nat → String → String
  | 0, name => name
  | fuel + 1, name =>
    match dictGet m name with
    | none => name
    | some name' => remapFuel m fuel name'

def remap (m : List (String × String)) (name : String) : String :=
  remapFuel m m.length name

/-- `collapse_consecutive_labels` from `peephole.py`. -/
def collapse_consecutive_labels (code : List BCInstr) : List BCInstr :=
  let r := collapseGo code none []
  r.1.map fun ins =>
    match ins with
    | BJmp l => BJmp (remap r.2 l)
    | BIfFalse c l => BIfFalse c (remap r.2 l)
    | other => other

/-- `peephole` from `peephole.py`: the three passes in order. -/
def peephole (code : List BCInstr) : List BCInstr :=
  collapse_consecutive_labels (remove_jmp_to_next_label (remove_mov_self code))

/- Predicates used to state the amended idempotence claim. -/

def isLabel : BCInstr → Bool
  | BLabel _ => true
  | _ => false

def jmpToNextPair : BCInstr → BCInstr → Bool
  | BJmp l, BLabel n => n = l
  | _, _ => false

/-- No `JMP L` is immediately followed by `LABEL L`. -/
def noJmpToNext : List BCInstr → Bool
  | [] => true
  | [_] => true
  | a :: b :: rest => !jmpToNextPair a b && noJmpToNext (b :: rest)

/-- No two adjacent `LABEL` instructions. -/
def noAdjLabels : List BCInstr → Bool
  | [] => true
  | [_] => true
  | a :: b :: rest => !(isLabel a && isLabel b) && noAdjLabels (b :: rest)

end Peephole

/- ### IR instructions (`ir.py`) -/

inductive IRInstr where
  | Label (name : String)
  | Goto (label : String)
  | IfFalse (cond label : String)
  | AssignInstr (dst src : String)
  | BinOp (dst op left right : String)
  | UnaryOp (dst op operand : String)
  | PrintInstr (value : String)
  | ReturnInstr (value : Option String)
  | FuncStart (name : String) (params : List String)
  | FuncEnd (name : String)
  | CallInstr (dst : Option String) (name : String) (args : List String)
deriving DecidableEq, Repr

namespace Optimizer

open IRInstr

/-- `used_vars` from `optimizer.py`. -/
def used_vars : IRInstr → List String
  | BinOp _ _ l r => [l, r]
  | UnaryOp _ _ x => [x]
  | AssignInstr _ s => [s]
  | IfFalse c _ => [c]
  | PrintInstr v => [v]
  | ReturnInstr (some v) => [v]
  | _ => []

/-- `defined_var` from `optimizer.py`. -/
def defined_var : IRInstr → Option String
  | AssignInstr d _ => some d
  | BinOp d _ _ _ => some d
  | UnaryOp d _ _ => some d
  | _ => none

/-- `has_side_effect` from `optimizer.py`: only an `Assign` to a non-temporary
counts as a user-variable write. -/
def has_side_effect : IRInstr → Bool
  | PrintInstr _ => true
  | ReturnInstr _ => true
  | IfFalse _ _ => true
  | Goto _ => true
  | Label _ => true
  | AssignInstr d _ => !is_temp d
  | _ => false

/-- Python `set` of live names, used only through membership. -/
def setAdd (s : List String) (x : String) : List String :=
  if x ∈ s then s else x :: s

def addUses (live : List String) (ins : IRInstr) : List String :=
  (used_vars ins).foldl (fun l u => if is_const u then l else setAdd l u) live

def setRemove (s : List String) (x : String) : List String :=
  s.filter fun y => !(y = x)

/-- One step of the reverse scan of `dce`: keep the instruction when it has a
side effect, defines a live name, or defines nothing; either way fold its
non-constant uses into the live set, and on keeping remove its destination
when live. -/
def dceGo : List IRInstr → List String → List IRInstr
  | [], _ => []
  | ins :: rest, live =>
    let d := defined_var ins
    if has_side_effect ins || (d.isSome && d.getD "" ∈ live) || d.isNone then
      let live' := addUses live ins
      let live'' :=
        match d with
        | some n => if n ∈ live' then setRemove live' n else live'
        | none => live'
      ins :: dceGo rest live''
    else
      dceGo rest (addUses live ins)

/-- `dce` from `optimizer.py`: reverse scan with a live set, then reverse the
kept instructions back into source order. -/
def dce (ir : List IRInstr) : List IRInstr :=
  (dceGo ir.reverse []).reverse

end Optimizer

/- ### AST (`ast_nodes.py`)

One node family, as in the source: every expression carries an
`inferred` slot (`inferred_type`), `none` until the semantic analyzer sets it.
Types and operators are the source's strings.  `FunctionDecl.body` holds the
statement list of the body `Block` the parser always builds there. -/

structure Param where
  type : String
  name : String
deriving DecidableEq, Repr

inductive LitVal where
  | vint (n : Int)
  | vfloat (q : Rat)
  | vbool (b : Bool)
deriving DecidableEq, Repr

inductive Expr where
  | Assign (name : String) (value : Expr) (line col : Nat) (inferred : Option String)
  | Call (name : String) (args : List Expr) (line col : Nat) (inferred : Option String)
  | Lit (value : LitVal) (kind : String) (inferred : Option String)
  | Var (name : String) (line col : Nat) (inferred : Option String)
  | Unary (op : String) (right : Expr) (inferred : Option String)
  | Binary (left : Expr) (op : String) (right : Expr) (inferred : Option String)
  | Grouping (e : Expr) (inferred : Option String)
deriving Repr

inductive Stmt where
  | Block (statements : List Stmt)
  | VarDecl (var_type name : String) (init : Option Expr) (line col : Nat)
  | If (cond : Expr) (then_branch : Stmt) (else_branch : Option Stmt)
  | While (cond : Expr) (body : Stmt)
  | For (init : Option Stmt) (cond : Option Expr) (post : Option Stmt) (body : Stmt)
  | Print (e : Expr)
  | Return (e : Option Expr)
  | ExprStmt (e : Expr)
  | FunctionDecl (return_type name : String) (params : List Param) (body : List Stmt)
deriving Repr

/-- A `Program` node is its statement list. -/
def Program := List Stmt

/-- Python `bool(value)` on a literal's payload. -/
def pyBool : LitVal → Bool
  | .vint n => !(n = 0)
  | .vfloat q => !(q = 0)
  | .vbool b => b

/-- Smallest `k ≤ 30` with `den ∣ 10^k`, for decimal rendering. -/
def decExp (den : Nat) : Option Nat :=
  (List.range 31).find? fun k => 10 ^ k % den = 0

/-- Models `str(value)` on a Python float holding the exact value `q`: the
literal forms in this pipeline are short decimals, whose `repr` is their exact
decimal expansion. -/
def floatStr (q : Rat) : String :=
  match decExp q.den with
  | some 0 => toString q.num ++ ".0"
  | some k =>
    let scaled := q.num.natAbs * 10 ^ k / q.den
    let ip := scaled / 10 ^ k
    let fp := scaled % 10 ^ k
    let fpStr := toString fp
    let pad := String.mk (List.replicate (k - fpStr.length) '0')
    (if q.num < 0 then "-" else "") ++ toString ip ++ "." ++ pad ++ fpStr
  | none => toString q

/-- Python `str(e.value)` in `gen_expr` for a non-bool literal. -/
def litStr : LitVal → String
  | .vint n => toString n
  | .vfloat q => floatStr q
  | .vbool b => if b then "True" else "False"

/- ### IR builder (`ir.py`, class `IRBuilder`) -/

namespace IRBuild

structure IRState where
  code : List IRInstr
  temp_counter : Nat
  label_counter : Nat
deriving DecidableEq, Repr

def initState : IRState := ⟨[], 0, 0⟩

def emit (st : IRState) (i : IRInstr) : IRState :=
  { st with code := st.code ++ [i] }

def new_temp (st : IRState) : String × IRState :=
  let n := st.temp_counter + 1
  ("t" ++ toString n, { st with temp_counter := n })

def new_label (st : IRState) (base : String) : String × IRState :=
  let n := st.label_counter + 1
  (base ++ toString n, { st with label_counter := n })

mutual

/-- `IRBuilder.gen_expr`: produces the operand name and the updated builder
state (emitted code, counters). -/
def gen_expr : IRState → Expr → String × IRState
  | st, .Lit v kind _ =>
    if kind = "bool" then ((if pyBool v then "1" else "0"), st)
    else (litStr v, st)
  | st, .Var name _ _ _ => (name, st)
  | st, .Assign name value _ _ _ =>
    let r := gen_expr st value
    (name, emit r.2 (.AssignInstr name r.1))
  | st, .Unary op right _ =>
    let t := new_temp st
    let r := gen_expr t.2 right
    (t.1, emit r.2 (.UnaryOp t.1 op r.1))
  | st, .Binary left op right _ =>
    let t := new_temp st
    let l := gen_expr t.2 left
    let r := gen_expr l.2 right
    (t.1, emit r.2 (.BinOp t.1 op l.1 r.1))
  | st, .Grouping e _ => gen_expr st e
  | st, .Call name args _ _ inferred =>
    let dst : Option String × IRState :=
      if inferred = some "void" then (none, st)
      else
        let t := new_temp st
        (some t.1, t.2)
    let r := gen_args dst.2 args
    let st' := emit r.2 (.CallInstr dst.1 name r.1)
    (match dst.1 with
     | none => "0"
     | some t => t, st')

/-- The argument list comprehension `[self.gen_expr(a) for a in e.args]`. -/
def gen_args : IRState → List Expr → List String × IRState
  | st, [] => ([], st)
  | st, a :: rest =>
    let r := gen_expr st a
    let rs := gen_args r.2 rest
    (r.1 :: rs.1, rs.2)

end

/-- `IRBuilder.gen_stmt`.  In the source the `Block` case reads
`for st in s.statements: self.gen_stmt(st); return` — the `return` sits inside
the loop body, so only the FIRST statement of a block is lowered; an empty
block falls through to the silent default. -/
def gen_stmt : IRState → Stmt → IRState
  | st, .Block stmts =>
    match stmts with
    | [] => st
    | s :: _ => gen_stmt st s
  | st, .VarDecl _ name init _ _ =>
    match init with
    | none => st
    | some e =>
      let r := gen_expr st e
      emit r.2 (.AssignInstr name r.1)
  | st, .If cond then_branch else_branch =>
    let el := new_label st "Lelse"
    let en := new_label el.2 "Lend"
    let c := gen_expr en.2 cond
    let st := emit c.2 (.IfFalse c.1 el.1)
    let st := gen_stmt st then_branch
    let st := emit st (.Goto en.1)
    let st := emit st (.Label el.1)
    let st := match else_branch with
      | none => st
      | some e => gen_stmt st e
    emit st (.Label en.1)
  | st, .While cond body =>
    let s := new_label st "Lwhile"
    let e := new_label s.2 "Lwend"
    let st := emit e.2 (.Label s.1)
    let c := gen_expr st cond
    let st := emit c.2 (.IfFalse c.1 e.1)
    let st := gen_stmt st body
    emit (emit st (.Goto s.1)) (.Label e.1)
  | st, .For init cond post body =>
    let s := new_label st "Lfor"
    let e := new_label s.2 "Lfend"
    let st := match init with
      | none => e.2
      | some i => gen_stmt e.2 i
    let st := emit st (.Label s.1)
    let st := match cond with
      | none => st
      | some c =>
        let r := gen_expr st c
        emit r.2 (.IfFalse r.1 e.1)
    let st := gen_stmt st body
    let st := match post with
      | none => st
      | some p => gen_stmt st p
    emit (emit st (.Goto s.1)) (.Label e.1)
  | st, .Print e =>
    let r := gen_expr st e
    emit r.2 (.PrintInstr r.1)
  | st, .Return e =>
    match e with
    | none => emit st (.ReturnInstr none)
    | some ex =>
      let r := gen_expr st ex
      emit r.2 (.ReturnInstr (some r.1))
  | st, .ExprStmt e => (gen_expr st e).2
  | st, .FunctionDecl _ name params body =>
    let st := emit st (.FuncStart name (params.map Param.name))
    -- `self.gen_stmt(s.body)` dispatches to the Block case: first stmt only
    let st := match body with
      | [] => st
      | s :: _ => gen_stmt st s
    emit st (.FuncEnd name)

/-- `IRBuilder.gen` / `ir_gen`: lower every top-level statement in order from
a fresh builder. -/
def ir_gen (root : Program) : List IRInstr :=
  (root.foldl gen_stmt initState).code

end IRBuild

/- ### Virtual machine (`vm.py`)

Values are embedded as exact rationals (the claims settled here concern
control flow, environments and error behavior, not floating-point rounding).
In the source, `self.env` is either the `global_env` dict itself (aliased at
top level) or a fresh per-call dict; the state's `localEnv` is `none` exactly
when `env` aliases the globals, and a `Frame.env` of `none` records that the
saved environment was that alias.  `step` returns `none` where the source
raises (`ZeroDivisionError` on `/` or `%`, `RuntimeError` on an unknown
operator), and `some (b, st)` for a normal step returning `b`. -/

namespace VM

/-- Python `int(f)`: truncation toward zero. -/
def pyTrunc (q : Rat) : Int :=
  if 0 ≤ q then (q.num.toNat / q.den : Nat) else -(((-q.num).toNat / q.den : Nat) : Int)

structure Frame where
  env : Option (List (String × Rat))
  ret_pc : Nat
  ret_dst : Option String
deriving DecidableEq, Repr

structure FuncMeta where
  start : Nat
  endIdx : Nat
  params : List String
deriving DecidableEq, Repr

structure VMState where
  code : List BCInstr
  labels : List (String × Nat)
  func_meta : List (String × FuncMeta)
  pc : Nat
  n : Nat
  stack : List Frame
  global_env : List (String × Rat)
  localEnv : Option (List (String × Rat))
  output : List String
deriving DecidableEq, Repr

/-- `VM._index`: one scan building the label map and the function
start/end ranges (ends matched through the `FUNC`/`ENDFUNC` stack). -/
def indexGo : List BCInstr → Nat → List String →
    List (String × Nat) → List (String × FuncMeta) →
    List (String × Nat) × List (String × FuncMeta)
  | [], _, _, labels, metas => (labels, metas)
  | ins :: rest, i, fstack, labels, metas =>
    match ins with
    | .BLabel name => indexGo rest (i + 1) fstack (dictSet labels name i) metas
    | .BFunc name params =>
      indexGo rest (i + 1) (name :: fstack)
        labels (dictSet metas name ⟨i, i, params⟩)
    | .BEndFunc _ =>
      match fstack with
      | [] => indexGo rest (i + 1) [] labels metas
      | name :: fs =>
        let metas' :=
          match dictGet metas name with
          | some fm => dictSet metas name { fm with endIdx := i }
          | none => metas  -- unreachable: every pushed name was inserted
        indexGo rest (i + 1) fs labels metas'
    | _ => indexGo rest (i + 1) fstack labels metas

/-- `VM.__init__` on a bytecode list. -/
def mkVM (code : List BCInstr) : VMState :=
  let ix := indexGo code 0 [] [] []
  { code := code, labels := ix.1, func_meta := ix.2, pc := 0, n := code.length,
    stack := [], global_env := [], localEnv := none, output := [] }

def is_true (v : Rat) : Bool := !(v = 0)

/-- `VM._fmt`: integral values render without a decimal point. -/
def fmt (v : Rat) : String :=
  if v.den = 1 then toString v.num else floatStr v

/-- `VM._get`: number literal, else current env, else global env, else 0. -/
def VMState.getOp (st : VMState) (x : String) : Rat :=
  match parseNum x with
  | some v => v
  | none =>
    match st.localEnv with
    | some env =>
      match dictGet env x with
      | some v => v
      | none => (dictGet st.global_env x).getD 0
    | none => (dictGet st.global_env x).getD 0

/-- `VM._set`: writes through `self.env` (the global dict when aliased). -/
def VMState.setVar (st : VMState) (name : String) (v : Rat) : VMState :=
  match st.localEnv with
  | some env => { st with localEnv := some (dictSet env name v) }
  | none => { st with global_env := dictSet st.global_env name v }

/-- `BIN` evaluation; `none` models the `ZeroDivisionError` on `/ 0` and
`% 0`, and the `RuntimeError` on an unknown operator.  Python integer `%` is
floor-remainder on the truncated operands. -/
def evalBin (op : String) (a b : Rat) : Option Rat :=
  if op = "+" then some (a + b)
  else if op = "-" then some (a - b)
  else if op = "*" then some (a * b)
  else if op = "/" then (if b = 0 then none else some (a / b))
  else if op = "%" then
    (if pyTrunc b = 0 then none else some ((Int.fmod (pyTrunc a) (pyTrunc b) : Int) : Rat))
  else if op = "<" then some (if a < b then 1 else 0)
  else if op = "<=" then some (if a ≤ b then 1 else 0)
  else if op = ">" then some (if b < a then 1 else 0)
  else if op = ">=" then some (if b ≤ a then 1 else 0)
  else if op = "==" then some (if a = b then 1 else 0)
  else if op = "!=" then some (if a = b then 0 else 1)
  else if op = "&&" then some (if is_true a && is_true b then 1 else 0)
  else if op = "||" then some (if is_true a || is_true b then 1 else 0)
  else none

def evalUnary (op : String) (a : Rat) : Option Rat :=
  if op = "!" then some (if is_true a then 0 else 1)
  else if op = "+" then some a
  else if op = "-" then some (-a)
  else none

/-- `VM.step`.  Result `some (b, st)`: the source returned `b` leaving state
`st`; result `none`: the source raised. -/
def step (st : VMState) : Option (Bool × VMState) :=
  if st.n ≤ st.pc then some (false, st)
  else
    match st.code.get? st.pc with
    | none => some (false, st)
    | some ins =>
      let st := { st with pc := st.pc + 1 }
      match ins with
      | .BFunc name _ =>
        if st.stack.isEmpty then
          let e :=
            match dictGet st.func_meta name with
            | some fm => fm.endIdx
            | none => st.pc - 1
          some (true, { st with pc := e + 1 })
        else some (true, st)
      | .BEndFunc _ =>
        match st.stack with
        | [] => some (true, st)
        | frame :: rest =>
          let st := { st with stack := rest, localEnv := frame.env }
          let st :=
            match frame.ret_dst with
            | some d => st.setVar d 0
            | none => st
          some (true, { st with pc := frame.ret_pc })
      | .BLabel _ => some (true, st)
      | .BJmp label =>
        some (true, { st with pc := (dictGet st.labels label).getD st.pc })
      | .BIfFalse cond label =>
        if is_true (st.getOp cond) then some (true, st)
        else some (true, { st with pc := (dictGet st.labels label).getD st.pc })
      | .BMov dst src => some (true, st.setVar dst (st.getOp src))
      | .BUnary dst op src =>
        match evalUnary op (st.getOp src) with
        | none => none
        | some v => some (true, st.setVar dst v)
      | .BBin dst op left right =>
        match evalBin op (st.getOp left) (st.getOp right) with
        | none => none
        | some v => some (true, st.setVar dst v)
      | .BPrint value =>
        some (true, { st with output := st.output ++ [fmt (st.getOp value)] })
      | .BCall dst name args =>
        match dictGet st.func_meta name with
        | none => some (true, st)
        | some meta =>
          let arg_vals := args.map st.getOp
          let frame : Frame := ⟨st.localEnv, st.pc, dst⟩
          let newEnv := (meta.params.enum.foldl
            (fun env pi => dictSet env pi.2 (arg_vals.getD pi.1 0)) [])
          some (true, { st with stack := frame :: st.stack,
                                localEnv := some newEnv, pc := meta.start + 1 })
      | .BRet value =>
        match st.stack with
        | [] => some (false, { st with pc := st.n })
        | frame :: rest =>
          let ret_val :=
            match value with
            | some v => st.getOp v
            | none => 0
          let st := { st with stack := rest, localEnv := frame.env }
          let st :=
            match frame.ret_dst with
            | some d => st.setVar d ret_val
            | none => st
          some (true, { st with pc := frame.ret_pc })

end VM

/- ### Lexer (`lexer.py`, `tokens.py`)

The character cursor is the remaining character list plus line/column; Python's
`_peek` past the end yields `'\0'`, which coincides with reading an in-string
NUL, so both appear here as the NUL character.  The two nested comment loops
of `_skip_ws_and_comments` are flattened into an explicit scanning mode: the
mode records whether the cursor stands inside a `//` comment or a `/* */`
comment, and each transition consumes exactly the characters the source
consumes.  `isalpha`/`isalnum` are taken on ASCII, the alphabet of this
language. -/

namespace Lexer

inductive TokenType where
  | PLUS | MINUS | STAR | SLASH | PERCENT
  | LPAREN | RPAREN | LBRACE | RBRACE
  | COMMA | SEMI | BANG | ASSIGN
  | LT | LE | GT | GE | EQ | NE | AND | OR
  | IDENT | INT_LIT | FLOAT_LIT | BOOL_LIT
  | KW_INT | KW_FLOAT | KW_BOOL | KW_VOID
  | KW_IF | KW_ELSE | KW_WHILE | KW_FOR | KW_RETURN | KW_PRINT
  | EOF
deriving DecidableEq, Repr

structure Token where
  type : TokenType
  lexeme : String
  line : Nat
  col : Nat
deriving DecidableEq, Repr

def KEYWORDS : List (String × TokenType) :=
  [("int", .KW_INT), ("float", .KW_FLOAT), ("bool", .KW_BOOL), ("void", .KW_VOID),
   ("if", .KW_IF), ("else", .KW_ELSE), ("while", .KW_WHILE), ("for", .KW_FOR),
   ("return", .KW_RETURN), ("print", .KW_PRINT),
   ("true", .BOOL_LIT), ("false", .BOOL_LIT)]

def twoCharType : List (String × TokenType) :=
  [("<=", .LE), (">=", .GE), ("==", .EQ), ("!=", .NE), ("&&", .AND), ("||", .OR)]

def singleType (c : Char) : Option TokenType :=
  if c = '+' then some .PLUS else if c = '-' then some .MINUS
  else if c = '*' then some .STAR else if c = '/' then some .SLASH
  else if c = '%' then some .PERCENT
  else if c = '(' then some .LPAREN else if c = ')' then some .RPAREN
  else if c = '\x7b' then some .LBRACE else if c = '\x7d' then some .RBRACE
  else if c = ',' then some .COMMA else if c = ';' then some .SEMI
  else if c = '!' then some .BANG else if c = '=' then some .ASSIGN
  else if c = '<' then some .LT else if c = '>' then some .GT
  else none

def nul : Char := Char.ofNat 0

def isIdentStart (c : Char) : Bool := c.isAlpha || c = '_'

def isIdentChar (c : Char) : Bool := c.isAlphanum || c = '_'

inductive LexMode where
  | code
  | lineC
  | blockC
deriving DecidableEq, Repr

/-- `Lexer.tokenize` plus `_skip_ws_and_comments`: one pass over the
characters.  Mode `code` is the token dispatch of `tokenize` (whitespace
included); `lineC` is the `//` loop (to newline or end, NUL read as end);
`blockC` is the `/* */` loop (closing on `*/`, silently ending at end of
input — the unterminated case). -/
def lexGo : List Char → Nat → Nat → LexMode → List Token
  | [], l, c, _ => [⟨.EOF, "", l, c⟩]
  | ch :: rest, l, c, .lineC =>
    if ch = '\n' then lexGo rest (l + 1) 1 .code
    else if ch = nul then [⟨.EOF, "", l, c⟩]
    else lexGo rest l (c + 1) .lineC
  | '*' :: '/' :: rest, l, c, .blockC => lexGo rest l (c + 2) .code
  | ch :: rest, l, c, .blockC =>
    if ch = nul then [⟨.EOF, "", l, c⟩]
    else if ch = '\n' then lexGo rest (l + 1) 1 .blockC
    else lexGo rest l (c + 1) .blockC
  | '/' :: '/' :: rest, l, c, .code => lexGo rest l (c + 2) .lineC
  | '/' :: '*' :: rest, l, c, .code => lexGo rest l (c + 2) .blockC
  | ch :: rest, l, c, .code =>
    if ch = ' ' || ch = '\t' || ch = '\r' then lexGo rest l (c + 1) .code
    else if ch = '\n' then lexGo rest (l + 1) 1 .code
    else if ch = nul then [⟨.EOF, "", l, c⟩]
    else if isIdentStart ch then
      let lexChars := ch :: rest.takeWhile isIdentChar
      let lexeme := String.mk lexChars
      let ttype := (dictGet KEYWORDS lexeme).getD .IDENT
      ⟨ttype, lexeme, l, c⟩ ::
        lexGo (rest.dropWhile isIdentChar) l (c + lexChars.length) .code
    else if ch.isDigit then
      let ds := ch :: rest.takeWhile Char.isDigit
      match hr : rest.dropWhile Char.isDigit with
      | '.' :: d :: r2 =>
        if d.isDigit then
          let fs := d :: r2.takeWhile Char.isDigit
          ⟨.FLOAT_LIT, String.mk (ds ++ '.' :: fs), l, c⟩ ::
            lexGo (r2.dropWhile Char.isDigit) l (c + ds.length + 1 + fs.length) .code
        else
          ⟨.INT_LIT, String.mk ds, l, c⟩ :: lexGo ('.' :: d :: r2) l (c + ds.length) .code
      | r1 => ⟨.INT_LIT, String.mk ds, l, c⟩ :: lexGo r1 l (c + ds.length) .code
    else
      match dictGet twoCharType (String.mk [ch, rest.getD 0 nul]) with
      | some tt =>
        ⟨tt, String.mk [ch, rest.getD 0 nul], l, c⟩ :: lexGo rest.tail l (c + 2) .code
      | none =>
        match singleType ch with
        | some tt => ⟨tt, String.mk [ch], l, c⟩ :: lexGo rest l (c + 1) .code
        | none => lexGo rest l (c + 1) .code
termination_by cs _ _ _ => cs.length
decreasing_by
  all_goals simp_all
  all_goals
    first
    | omega
    | (have h1 := (List.dropWhile_sublist (l := rest) isIdentChar).length_le; omega)
    | (have h1 := (List.dropWhile_sublist (l := rest) Char.isDigit).length_le
       first
       | omega
       | (have h2 := congrArg List.length hr
          simp at h2
          first
          | omega
          | (have h3 := (List.dropWhile_sublist (l := r2) Char.isDigit).length_le
             omega)))

/-- `lex` / `Lexer.tokenize` on a source string: line and column start at 1. -/
def lex (src : String) : List Token :=
  lexGo src.toList 1 1 .code

/-- Whether `*/` occurs anywhere in the character list. -/
def hasCloser : List Char → Bool
  | '*' :: '/' :: _ => true
  | _ :: rest => hasCloser rest
  | [] => false

end Lexer

/- ### Semantic analyzer (`semantics.py`, `symbol_table.py`)

The analyzer state carries the scope stack (head = current scope, matching the
parent chain of `Scope`), the diagnostics in emission order, the function
signature table and `current_ret`.  Visitors return the typed node (the
source mutates nodes in place; unvisited subtrees come back untouched, their
`inferred` slot still `none`) together with the inferred type where the
source returns one. -/

namespace Semantics

structure Diag where
  message : String
  line : Nat
  col : Nat
deriving DecidableEq, Repr

structure FuncSig where
  ret : String
  params : List (String × String)
deriving DecidableEq, Repr

structure AnState where
  scopes : List (List (String × String))
  errors : List Diag
  funcs : List (String × FuncSig)
  current_ret : Option String
deriving Repr

def err (st : AnState) (line col : Nat) (msg : String) : AnState :=
  { st with errors := st.errors ++ [⟨msg, line, col⟩] }

def push_scope (st : AnState) : AnState :=
  { st with scopes := [] :: st.scopes }

def pop_scope (st : AnState) : AnState :=
  { st with scopes := st.scopes.tail }

/-- `Scope.define` through `SymbolTable.define`: fails when the name already
exists in the current scope (the empty stack cannot occur: the global scope
is never popped). -/
def define (st : AnState) (name type_ : String) : Bool × AnState :=
  match st.scopes with
  | [] => (false, st)
  | s :: rest =>
    if (dictGet s name).isSome then (false, st)
    else (true, { st with scopes := dictSet s name type_ :: rest })

/-- `Scope.resolve` from the current scope up the parent chain. -/
def resolve (st : AnState) (name : String) : Option String :=
  resolveIn st.scopes name
where
  resolveIn : List (List (String × String)) → String → Option String
    | [], _ => none
    | s :: rest, n =>
      match dictGet s n with
      | some t => some t
      | none => resolveIn rest n

/-- `SemanticAnalyzer.assignable`. -/
def assignable (to_type from_type : String) : Bool :=
  if to_type = from_type then true
  else if to_type = "float" && from_type = "int" then true
  else if to_type = "void" then from_type = "void"
  else false

def isNumeric (t : String) : Bool := t = "int" || t = "float"

mutual

/-- `SemanticAnalyzer.visit_expr` dispatch: returns the typed node, the
inferred type and the updated state. -/
def visitExpr (st : AnState) : Expr → Expr × String × AnState
  | .Assign name value line col _ =>
    match resolve st name with
    | none =>
      let st := err st line col ("Undeclared variable '" ++ name ++ "'")
      let r := visitExpr st value
      (.Assign name r.1 line col (some "error"), "error", r.2.2)
    | some symType =>
      let r := visitExpr st value
      if !assignable symType r.2.1 then
        let st := err r.2.2 line col
          ("Cannot assign " ++ r.2.1 ++ " to " ++ symType ++ " variable '" ++ name ++ "'")
        (.Assign name r.1 line col (some "error"), "error", st)
      else
        (.Assign name r.1 line col (some symType), symType, r.2.2)
  | .Call name args line col _ =>
    match dictGet st.funcs name with
    | none =>
      let st := err st line col ("Call to undefined function '" ++ name ++ "'")
      let r := visitArgsAll st args
      (.Call name r.1 line col (some "error"), "error", r.2)
    | some sig =>
      let st :=
        if !(args.length = sig.params.length) then
          err st line col ("Function '" ++ name ++ "' expects " ++
            toString sig.params.length ++ " arg(s), got " ++ toString args.length)
        else st
      let r := visitZipArgs st sig.params args name line col
      (.Call name r.1 line col (some sig.ret), sig.ret, r.2)
  | .Lit v kind _ => (.Lit v kind (some kind), kind, st)
  | .Var name line col _ =>
    match resolve st name with
    | none =>
      let st := err st line col ("Undeclared variable '" ++ name ++ "'")
      (.Var name line col (some "error"), "error", st)
    | some t => (.Var name line col (some t), t, st)
  | .Unary op right _ =>
    let r := visitExpr st right
    let t := r.2.1
    let st := r.2.2
    if op = "!" then
      if !(t = "bool") then
        (.Unary op r.1 (some "error"), "error", err st 0 0 "'!' requires bool")
      else (.Unary op r.1 (some "bool"), "bool", st)
    else if op = "+" || op = "-" then
      if !isNumeric t then
        (.Unary op r.1 (some "error"), "error",
         err st 0 0 ("Unary '" ++ op ++ "' requires numeric operand"))
      else (.Unary op r.1 (some t), t, st)
    else (.Unary op r.1 (some "error"), "error", st)
  | .Binary left op right _ =>
    let lr := visitExpr st left
    let rr := visitExpr lr.2.2 right
    let lt := lr.2.1
    let rt := rr.2.1
    let st := rr.2.2
    if op = "+" || op = "-" || op = "*" || op = "/" then
      if isNumeric lt && isNumeric rt then
        let ty := if lt = "float" || rt = "float" then "float" else "int"
        (.Binary lr.1 op rr.1 (some ty), ty, st)
      else
        (.Binary lr.1 op rr.1 (some "error"), "error",
         err st 0 0 ("Operator '" ++ op ++ "' requires numeric operands"))
    else if op = "%" then
      if lt = "int" && rt = "int" then (.Binary lr.1 op rr.1 (some "int"), "int", st)
      else
        (.Binary lr.1 op rr.1 (some "error"), "error",
         err st 0 0 "'%' requires int operands")
    else if op = "<" || op = "<=" || op = ">" || op = ">=" then
      if isNumeric lt && isNumeric rt then
        (.Binary lr.1 op rr.1 (some "bool"), "bool", st)
      else
        (.Binary lr.1 op rr.1 (some "error"), "error",
         err st 0 0 ("Operator '" ++ op ++ "' requires numeric operands"))
    else if op = "==" || op = "!=" then
      if lt = rt && !(lt = "error") then
        (.Binary lr.1 op rr.1 (some "bool"), "bool", st)
      else
        (.Binary lr.1 op rr.1 (some "error"), "error",
         err st 0 0 "'=='/'!=' require operands of the same type")
    else if op = "&&" || op = "||" then
      if lt = "bool" && rt = "bool" then
        (.Binary lr.1 op rr.1 (some "bool"), "bool", st)
      else
        (.Binary lr.1 op rr.1 (some "error"), "error",
         err st 0 0 "'&&'/'||' require bool operands")
    else
      (.Binary lr.1 op rr.1 (some "error"), "error",
       err st 0 0 ("Unknown operator '" ++ op ++ "'"))
  | .Grouping e _ =>
    let r := visitExpr st e
    (.Grouping r.1 (some r.2.1), r.2.1, r.2.2)

/-- The `for a in node.args: self.visit_expr(a)` loop of the unknown-function
branch of `visit_call`. -/
def visitArgsAll (st : AnState) : List Expr → List Expr × AnState
  | [] => ([], st)
  | a :: rest =>
    let r := visitExpr st a
    let rs := visitArgsAll r.2.2 rest
    (r.1 :: rs.1, rs.2)

/-- The `for (pt, _), arg in zip(sig.params, node.args)` loop of `visit_call`:
arguments beyond the parameter list are NOT visited and come back untouched. -/
def visitZipArgs (st : AnState) :
    List (String × String) → List Expr → String → Nat → Nat → List Expr × AnState
  | _, [], _, _, _ => ([], st)
  | [], args, _, _, _ => (args, st)
  | p :: ps, a :: rest, name, line, col =>
    let r := visitExpr st a
    let st :=
      if !assignable p.1 r.2.1 then
        err r.2.2 line col ("Argument type " ++ r.2.1 ++
          " incompatible with parameter " ++ p.1 ++ " in call to '" ++ name ++ "'")
      else r.2.2
    let rs := visitZipArgs st ps rest name line col
    (r.1 :: rs.1, rs.2)

end

mutual

/-- `SemanticAnalyzer.visit_stmt` dispatch.  A `FunctionDecl` reaches no case
of the source dispatcher and is returned untouched. -/
def visitStmt (st : AnState) : Stmt → Stmt × AnState
  | .Block stmts =>
    let st := push_scope st
    let r := visitBlockList st stmts
    (.Block r.1, pop_scope r.2)
  | .VarDecl var_type name init line col =>
    let d := define st name var_type
    let st := if !d.1 then err d.2 line col ("Redeclaration of '" ++ name ++ "'") else d.2
    match init with
    | none => (.VarDecl var_type name none line col, st)
    | some e =>
      let r := visitExpr st e
      let st :=
        if !assignable var_type r.2.1 then
          err r.2.2 line col ("Cannot assign " ++ r.2.1 ++ " to " ++ var_type ++
            " in declaration '" ++ name ++ "'")
        else r.2.2
      (.VarDecl var_type name (some r.1) line col, st)
  | .If cond then_branch else_branch =>
    let c := visitExpr st cond
    let st := if !(c.2.1 = "bool") then err c.2.2 0 0 "if condition must be bool" else c.2.2
    let t := visitStmt st then_branch
    let r := visitOptStmt t.2 else_branch
    (.If c.1 t.1 r.1, r.2)
  | .While cond body =>
    let c := visitExpr st cond
    let st := if !(c.2.1 = "bool") then err c.2.2 0 0 "while condition must be bool" else c.2.2
    let b := visitStmt st body
    (.While c.1 b.1, b.2)
  | .For init cond post body =>
    let st := push_scope st
    let ri := visitOptStmt st init
    let rc : Option Expr × AnState :=
      match cond with
      | none => (none, ri.2)
      | some c =>
        let r := visitExpr ri.2 c
        (some r.1,
         if !(r.2.1 = "bool") then err r.2.2 0 0 "for condition must be bool" else r.2.2)
    let rp := visitOptStmt rc.2 post
    let rb := visitStmt rp.2 body
    (.For ri.1 rc.1 rp.1 rb.1, pop_scope rb.2)
  | .Print e =>
    let r := visitExpr st e
    (.Print r.1, r.2.2)
  | .Return e =>
    match st.current_ret with
    | none =>
      match e with
      | none => (.Return none, st)
      | some ex =>
        let r := visitExpr st ex
        (.Return (some r.1), r.2.2)
    | some ret =>
      match e with
      | none =>
        (.Return none,
         if !(ret = "void") then
           err st 0 0 ("Return value required for function returning " ++ ret)
         else st)
      | some ex =>
        let r := visitExpr st ex
        let st :=
          if !assignable ret r.2.1 then
            err r.2.2 0 0 ("Cannot return " ++ r.2.1 ++ " from function returning " ++ ret)
          else r.2.2
        (.Return (some r.1), st)
  | .ExprStmt e =>
    let r := visitExpr st e
    (.ExprStmt r.1, r.2.2)
  | .FunctionDecl rt name params body => (.FunctionDecl rt name params body, st)

/-- The `if node.x: self.visit_stmt(node.x)` pattern on an optional child. -/
def visitOptStmt (st : AnState) : Option Stmt → Option Stmt × AnState
  | none => (none, st)
  | some s =>
    let r := visitStmt st s
    (some r.1, r.2)

/-- The statement loop of `visit_block`: a nested `FunctionDecl` is reported
and NOT visited. -/
def visitBlockList (st : AnState) : List Stmt → List Stmt × AnState
  | [] => ([], st)
  | s :: rest =>
    match s with
    | .FunctionDecl rt name params body =>
      let st := err st 0 0 "Nested function declarations not allowed"
      let rs := visitBlockList st rest
      (.FunctionDecl rt name params body :: rs.1, rs.2)
    | other =>
      let r := visitStmt st other
      let rs := visitBlockList r.2 rest
      (r.1 :: rs.1, rs.2)

end

/-- One parameter definition of `visit_function`'s parameter loop. -/
def paramStep (st : AnState) (p : Param) : AnState :=
  let d := define st p.name p.type
  if !d.1 then err d.2 0 0 ("Parameter redeclared: " ++ p.name) else d.2

/-- `SemanticAnalyzer.visit_function`: a scope for the parameters, then the
body `Block` (which pushes its own scope). -/
def visitFunction (st : AnState) (rt name : String) (params : List Param)
    (body : List Stmt) : Stmt × AnState :=
  let saved := st.current_ret
  let st := { st with current_ret := some rt }
  let st := push_scope st
  let st := params.foldl paramStep st
  let st := push_scope st
  let rb := visitBlockList st body
  let st := pop_scope rb.2
  let st := pop_scope st
  (.FunctionDecl rt name params rb.1, { st with current_ret := saved })

/-- The signature pre-pass of `visit_program`: first declaration wins,
duplicates are reported. -/
def collectFuncs (st : AnState) : List Stmt → AnState
  | [] => st
  | .FunctionDecl rt name params _ :: rest =>
    let st :=
      if (dictGet st.funcs name).isSome then
        err st 0 0 ("Redeclaration of function '" ++ name ++ "'")
      else { st with funcs := dictSet st.funcs name ⟨rt, params.map fun p => (p.type, p.name)⟩ }
    collectFuncs st rest
  | _ :: rest => collectFuncs st rest

/-- The main loop of `visit_program`. -/
def visitTop (st : AnState) : List Stmt → List Stmt × AnState
  | [] => ([], st)
  | s :: rest =>
    let r :=
      match s with
      | .FunctionDecl rt name params body => visitFunction st rt name params body
      | other => visitStmt st other
    let rs := visitTop r.2 rest
    (r.1 :: rs.1, rs.2)

/-- `analyze`: fresh analyzer (one global scope), signature pre-pass, then the
main pass.  The result keeps the typed body, the diagnostics, the final scope
stack (head = current) and the signature table. -/
def analyze (prog : Program) : List Stmt × AnState :=
  let st : AnState := ⟨[[]], [], [], none⟩
  let st := collectFuncs st prog
  visitTop st prog

/-- `SymbolTable.to_json`: scopes enumerated from the global scope (index 0),
i.e. the reverse of our head-is-current stack, each with its level and its
name-to-type map in insertion order. -/
def symtab_to_json (st : AnState) : List (Nat × List (String × String)) :=
  st.scopes.reverse.enum

/-- The type names the language's declarations can carry. -/
def validT (t : String) : Bool :=
  t = "int" || t = "float" || t = "bool" || t = "void"

/-- An inferred slot that is filled with a language type or `"error"`. -/
def tyOk (t : String) : Bool := validT t || t = "error"

def infOk : Option String → Bool
  | some t => tyOk t
  | none => false

mutual

/-- Input-side conditions under which the analyzer annotates a whole
expression: literal kinds are language types, and a call to a function known
in the table `F` passes no more arguments than the signature has parameters
(extra arguments are skipped by the `zip` loop and stay unvisited). -/
def exprOk (F : List (String × FuncSig)) : Expr → Bool
  | .Assign _ value _ _ _ => exprOk F value
  | .Call name args _ _ _ =>
    (match dictGet F name with
     | some sig => decide (args.length ≤ sig.params.length)
     | none => true) && exprsOk F args
  | .Lit _ kind _ => validT kind
  | .Var _ _ _ _ => true
  | .Unary _ right _ => exprOk F right
  | .Binary left _ right _ => exprOk F left && exprOk F right
  | .Grouping e _ => exprOk F e

def exprsOk (F : List (String × FuncSig)) : List Expr → Bool
  | [] => true
  | e :: rest => exprOk F e && exprsOk F rest

end

mutual

/-- Every expression node of the (typed) tree carries `some` inferred type
drawn from `{int, float, bool, void, error}`. -/
def exprTyped : Expr → Bool
  | .Assign _ value _ _ i => infOk i && exprTyped value
  | .Call _ args _ _ i => infOk i && exprsTyped args
  | .Lit _ _ i => infOk i
  | .Var _ _ _ i => infOk i
  | .Unary _ right i => infOk i && exprTyped right
  | .Binary left _ right i => infOk i && exprTyped left && exprTyped right
  | .Grouping e i => infOk i && exprTyped e

def exprsTyped : List Expr → Bool
  | [] => true
  | e :: rest => exprTyped e && exprsTyped rest

end

mutual

/-- Input-side conditions at statement level: expression conditions
throughout, declared types are language types, and no `FunctionDecl` occurs
(below the top level the analyzer reports nested functions and leaves them
unvisited). -/
def stmtOk (F : List (String × FuncSig)) : Stmt → Bool
  | .Block ss => stmtsOk F ss
  | .VarDecl t _ init _ _ =>
    validT t && (match init with | none => true | some e => exprOk F e)
  | .If cond t e => exprOk F cond && stmtOk F t && optStmtOk F e
  | .While cond b => exprOk F cond && stmtOk F b
  | .For i cond p b =>
    optStmtOk F i &&
    (match cond with | none => true | some e => exprOk F e) &&
    optStmtOk F p && stmtOk F b
  | .Print e => exprOk F e
  | .Return e => (match e with | none => true | some ex => exprOk F ex)
  | .ExprStmt e => exprOk F e
  | .FunctionDecl _ _ _ _ => false

def optStmtOk (F : List (String × FuncSig)) : Option Stmt → Bool
  | none => true
  | some s => stmtOk F s

def stmtsOk (F : List (String × FuncSig)) : List Stmt → Bool
  | [] => true
  | s :: rest => stmtOk F s && stmtsOk F rest

end

mutual

/-- Every expression node under the statement is fully annotated with a
language type or `"error"`. -/
def stmtTyped : Stmt → Bool
  | .Block ss => stmtsTyped ss
  | .VarDecl _ _ init _ _ =>
    (match init with | none => true | some e => exprTyped e)
  | .If cond t e => exprTyped cond && stmtTyped t && optStmtTyped e
  | .While cond b => exprTyped cond && stmtTyped b
  | .For i cond p b =>
    optStmtTyped i &&
    (match cond with | none => true | some e => exprTyped e) &&
    optStmtTyped p && stmtTyped b
  | .Print e => exprTyped e
  | .Return e => (match e with | none => true | some ex => exprTyped ex)
  | .ExprStmt e => exprTyped e
  | .FunctionDecl _ _ _ body => stmtsTyped body

def optStmtTyped : Option Stmt → Bool
  | none => true
  | some s => stmtTyped s

def stmtsTyped : List Stmt → Bool
  | [] => true
  | s :: rest => stmtTyped s && stmtsTyped rest

end

/-- Input-side condition at the top level: a `FunctionDecl` carries a valid
return type, valid parameter types and a good body; anything else is a good
statement. -/
def topOk (F : List (String × FuncSig)) : Stmt → Bool
  | .FunctionDecl rt _ params body =>
    validT rt && params.all (fun p => validT p.type) && stmtsOk F body
  | s => stmtOk F s

/-- Return types of top-level function declarations are language types. -/
def topRetValid : Stmt → Bool
  | .FunctionDecl rt _ _ _ => validT rt
  | _ => true

/-- The whole-program condition, checked against the signature table the
pre-pass itself builds. -/
def progOk (prog : Program) : Bool :=
  prog.all (topOk (collectFuncs ⟨[[]], [], [], none⟩ prog).funcs)

/-- Every type recorded in any scope is a language type. -/
def scopesOk (st : AnState) : Bool :=
  st.scopes.all (fun s => s.all fun p => validT p.2)

/-- Every return type in the signature table is a language type. -/
def funcsOk (F : List (String × FuncSig)) : Bool :=
  F.all fun p => validT p.2.ret

/-- The invariant carried through the annotation proofs: the scopes hold
language types only and the signature table is `F`. -/
def okInv (F : List (String × FuncSig)) (st : AnState) : Prop :=
  scopesOk st = true ∧ st.funcs = F

end Semantics

/- ### Statements of the claims -/

/-- The typed AST of `if (true) { print(1); print(2); }`. -/
def c1Program : Program :=
  [.If (.Lit (.vbool true) "bool" (some "bool"))
     (.Block [.Print (.Lit (.vint 1) "int" (some "int")),
              .Print (.Lit (.vint 2) "int" (some "int"))])
     none]

/-- Claim C6 as stated: no `Assign`, `Bin` or `Unary` whose destination is not
a temporary is ever dropped by `dce`. -/
def userWritesKept : Prop :=
  ∀ (ir : List IRInstr) (ins : IRInstr), ins ∈ ir →
    (Optimizer.defined_var ins).isSome →
    is_temp ((Optimizer.defined_var ins).getD "") = false →
    ins ∈ Optimizer.dce ir

/-- An `Assign` to a user (non-temporary) name. -/
def isUserAssign : IRInstr → Bool
  | .AssignInstr d _ => !is_temp d
  | _ => false

/-- Claim C2's headline: no execution step of the VM ever surfaces a runtime
error (a `step` result of `none` is a raised Python exception). -/
def vmNeverRaises : Prop := ∀ st : VM.VMState, (VM.step st).isSome

/- ### C1 -/

/-- C1: the IR builder is claimed to lower a `Block` by emitting every one of
its statements in order.  The code does not: in `gen_stmt` the `return` sits
inside the `for` loop, so for the typed AST of
`if (true) { print(1); print(2); }` the emitted IR holds the lowering of the
first `print` only — no `print 2` appears between the `IfFalse` and the
`Goto`, contradicting the spec's traversal of the then branch. -/
theorem c1_block_drops_all_but_first_statement :
    IRBuild.ir_gen c1Program =
      [.IfFalse "1" "Lelse1", .PrintInstr "1", .Goto "Lend2",
       .Label "Lelse1", .Label "Lend2"] ∧
    IRInstr.PrintInstr "2" ∉ IRBuild.ir_gen c1Program := by
  constructor
  · rfl
  · decide

/- ### C6 -/

/-- C6 counterexample: the claim fails as stated — a `Bin` whose destination
is the user variable `x` (no temporary) is dropped by `dce` when `x` is not
live, because `has_side_effect` exempts only `Assign` writes. -/
theorem c6_user_bin_write_dropped : ¬ userWritesKept := by
  intro h
  have := h [.BinOp "x" "+" "a" "b"] (.BinOp "x" "+" "a" "b")
    (by decide) (by decide) (by decide)
  revert this
  decide

/- ### C5 -/

/-- The program `void f(int n) { int n; }`: a function whose body block
redeclares a parameter's name at its top level. -/
def c5Program : Program :=
  [.FunctionDecl "void" "f" [⟨"int", "n"⟩] [.VarDecl "int" "n" none 1 16]]

/-- C5 counterexample: semantic analysis of `void f(int n) { int n; }`
reports NO diagnostic at all — in particular no redeclaration — because
`visit_function` defines the parameters in one scope and `visit_block` pushes
a second, inner scope for the body, so the body-level `define` succeeds. -/
theorem c5_param_shadowing_unreported :
    (Semantics.analyze c5Program).2.errors = [] := by
  rfl

/-- C5 amended: parameters live in a scope enclosing the body block's own
scope, so for EVERY function, a top-of-body declaration reusing a parameter's
name shadows the parameter and analysis reports no diagnostic (over any
return type, parameter type, declared type and names). -/
theorem c5_param_shadowing_allowed (rt f t t' n : String) (l c : Nat) :
    (Semantics.analyze
      [.FunctionDecl rt f [⟨t, n⟩] [.VarDecl t' n none l c]]).2.errors = [] := by
  simp [Semantics.analyze, Semantics.collectFuncs, Semantics.visitTop,
    Semantics.visitFunction, Semantics.paramStep, Semantics.visitBlockList,
    Semantics.visitStmt, Semantics.define, Semantics.push_scope,
    Semantics.pop_scope, dictGet, dictSet]

/-- The reverse scan of `dce` preserves exactly the user-variable `Assign`s:
an instruction it drops never is one (a non-temporary `Assign` destination is
a side effect, hence kept). -/
theorem dceGo_filter_userAssign (l : List IRInstr) (live : List String) :
    (Optimizer.dceGo l live).filter isUserAssign = l.filter isUserAssign := by
  induction l generalizing live with
  | nil => rfl
  | cons ins rest ih =>
    by_cases hk : (Optimizer.has_side_effect ins ||
        ((Optimizer.defined_var ins).isSome &&
          (Optimizer.defined_var ins).getD "" ∈ live) ||
        (Optimizer.defined_var ins).isNone : Bool) = true
    · simp only [Optimizer.dceGo, hk, if_pos]
      by_cases hp : isUserAssign ins = true
      · simp [List.filter, hp, ih]
      · simp [List.filter, hp, ih]
    · simp only [Optimizer.dceGo, if_neg hk]
      have hnp : isUserAssign ins = false := by
        cases ins <;>
          simp_all [isUserAssign, Optimizer.has_side_effect, Optimizer.defined_var]
      simp [List.filter, hnp, ih]

/-- C6 amended: `dce` never drops an `Assign` to a user variable — those
instructions survive with order and multiplicity intact — while a `Bin` or
`Unary` writing a user variable enjoys no such protection (see the
counterexample theorem). -/
theorem c6_user_assigns_never_dropped (ir : List IRInstr) :
    (Optimizer.dce ir).filter isUserAssign = ir.filter isUserAssign ∧
    ∀ ins ∈ ir, isUserAssign ins = true → ins ∈ Optimizer.dce ir := by
  have hfilter : (Optimizer.dce ir).filter isUserAssign = ir.filter isUserAssign := by
    unfold Optimizer.dce
    rw [List.filter_reverse, dceGo_filter_userAssign, List.filter_reverse,
      List.reverse_reverse]
  refine ⟨hfilter, fun ins hmem hua => ?_⟩
  have : ins ∈ (Optimizer.dce ir).filter isUserAssign := by
    rw [hfilter]
    exact List.mem_filter.mpr ⟨hmem, hua⟩
  exact (List.mem_filter.mp this).1

/-- Witness for the amended C6 at a concrete IR sequence: the user assignment
survives `dce` even though its destination is dead. -/
theorem c6_user_assigns_never_dropped_witness :
    IRInstr.AssignInstr "x" "t9" ∈
      Optimizer.dce [.BinOp "t1" "+" "a" "b", .AssignInstr "x" "t9"] :=
  (c6_user_assigns_never_dropped [.BinOp "t1" "+" "a" "b", .AssignInstr "x" "t9"]).2
    (.AssignInstr "x" "t9") (by decide) (by decide)

/- ### C3 -/

namespace Peephole

theorem remove_mov_self_sublist (c : List BCInstr) :
    List.Sublist (remove_mov_self c) c :=
  List.filter_sublist c

theorem remove_jmp_sublist (c : List BCInstr) :
    List.Sublist (remove_jmp_to_next_label c) c := by
  induction c using remove_jmp_to_next_label.induct with
  | case1 => simp [remove_jmp_to_next_label]
  | case2 n rest ih =>
    rw [remove_jmp_to_next_label]
    simp only [if_pos rfl]
    exact ih.cons _
  | case3 l n rest h ih =>
    rw [remove_jmp_to_next_label]
    simp only [if_neg h]
    exact ih.cons₂ _
  | case4 ins rest h ih =>
    rw [remove_jmp_to_next_label.eq_def]
    split
    · exact List.nil_sublist _
    · rename_i x l2 n2 rest2 heq
      exfalso
      injection heq with e1 e2
      exact h l2 n2 rest2 e1 e2
    · rename_i x ins2 rest2 hne heq
      injection heq with e1 e2
      subst e1; subst e2
      exact ih.cons₂ _

/-- The head of the list is not a `LABEL`. -/
def headNotLabel : List BCInstr → Bool
  | BCInstr.BLabel _ :: _ => false
  | _ => true

theorem noJmpToNext_tail {a : BCInstr} {l : List BCInstr}
    (h : noJmpToNext (a :: l) = true) : noJmpToNext l = true := by
  cases l with
  | nil => rfl
  | cons b rest => simp [noJmpToNext] at h; exact h.2

theorem noAdjLabels_tail {a : BCInstr} {l : List BCInstr}
    (h : noAdjLabels (a :: l) = true) : noAdjLabels l = true := by
  cases l with
  | nil => rfl
  | cons b rest => simp [noAdjLabels] at h; exact h.2

/-- When no `JMP` targets the immediately following label, the jump-removal
pass is the identity. -/
theorem remove_jmp_eq_self (c : List BCInstr) (h : noJmpToNext c = true) :
    remove_jmp_to_next_label c = c := by
  induction c using remove_jmp_to_next_label.induct with
  | case1 => rfl
  | case2 n rest ih =>
    exfalso
    simp [noJmpToNext, jmpToNextPair] at h
  | case3 l n rest hne ih =>
    rw [remove_jmp_to_next_label]
    simp only [if_neg hne]
    rw [ih (noJmpToNext_tail h)]
  | case4 ins rest hno ih =>
    rw [remove_jmp_to_next_label.eq_def]
    split
    · rename_i x heq
      exact absurd heq (List.cons_ne_nil _ _)
    · rename_i x l2 n2 rest2 heq
      exfalso
      injection heq with e1 e2
      exact hno l2 n2 rest2 e1 e2
    · rename_i x ins2 rest2 hne heq
      injection heq with e1 e2
      subst e1; subst e2
      rw [ih (noJmpToNext_tail h)]

/-- When no two labels are adjacent, the collapse fold keeps every
instruction and records no rename. -/
theorem collapseGo_of_noAdj :
    ∀ (l : List BCInstr) (m : List (String × String)) (prev : Option String),
      noAdjLabels l = true →
      (prev.isSome = true → headNotLabel l = true) →
      collapseGo l prev m = (l, m) := by
  intro l
  induction l with
  | nil =>
    intro m prev _ _
    cases prev <;> rfl
  | cons x rest ih =>
    intro m prev hadj hprev
    cases x with
    | BLabel n =>
      cases prev with
      | some p => simp [headNotLabel] at hprev
      | none =>
        have hrest : headNotLabel rest = true := by
          cases rest with
          | nil => rfl
          | cons y rest2 =>
            cases y <;> simp_all [noAdjLabels, isLabel, headNotLabel]
        rw [collapseGo, ih m (some n) (noAdjLabels_tail hadj) (fun _ => hrest)]
    | BJmp lab =>
      (rw [collapseGo, ih m none (noAdjLabels_tail hadj) (by simp)]) <;> simp
    | BIfFalse cnd lab =>
      (rw [collapseGo, ih m none (noAdjLabels_tail hadj) (by simp)]) <;> simp
    | BMov d s =>
      (rw [collapseGo, ih m none (noAdjLabels_tail hadj) (by simp)]) <;> simp
    | BUnary d op s =>
      (rw [collapseGo, ih m none (noAdjLabels_tail hadj) (by simp)]) <;> simp
    | BBin d op a b =>
      (rw [collapseGo, ih m none (noAdjLabels_tail hadj) (by simp)]) <;> simp
    | BPrint v =>
      (rw [collapseGo, ih m none (noAdjLabels_tail hadj) (by simp)]) <;> simp
    | BRet v =>
      (rw [collapseGo, ih m none (noAdjLabels_tail hadj) (by simp)]) <;> simp
    | BFunc name params =>
      (rw [collapseGo, ih m none (noAdjLabels_tail hadj) (by simp)]) <;> simp
    | BEndFunc name =>
      (rw [collapseGo, ih m none (noAdjLabels_tail hadj) (by simp)]) <;> simp
    | BCall d name args =>
      (rw [collapseGo, ih m none (noAdjLabels_tail hadj) (by simp)]) <;> simp

/-- With no adjacent labels, label collapsing is the identity. -/
theorem collapse_eq_self (c : List BCInstr) (h : noAdjLabels c = true) :
    collapse_consecutive_labels c = c := by
  unfold collapse_consecutive_labels
  rw [collapseGo_of_noAdj c [] none h (by simp)]
  have hid : ∀ ins : BCInstr,
      (match ins with
       | BCInstr.BJmp l => BCInstr.BJmp (remap [] l)
       | BCInstr.BIfFalse cnd l => BCInstr.BIfFalse cnd (remap [] l)
       | other => other) = ins := by
    intro ins
    cases ins <;> rfl
  simp only [hid, List.map_id']

/-- The post-pass state of the first two peephole passes: the claims about a
second application hinge on its shape. -/
def afterMovJmp (c : List BCInstr) : List BCInstr :=
  remove_jmp_to_next_label (remove_mov_self c)

theorem afterMovJmp_all_movOk (c : List BCInstr) :
    (afterMovJmp c).all movOk = true := by
  have h1 : (remove_mov_self c).all movOk = true := by
    simp [remove_mov_self, List.all_filter]
  rw [List.all_eq_true] at h1 ⊢
  intro x hx
  exact h1 x ((remove_jmp_sublist (remove_mov_self c)).subset hx)

/-- C3 amended: `peephole` is idempotent on every bytecode sequence whose
first two passes leave no jump-to-next-label pair and no adjacent labels —
then the collapse pass is the identity and a second application changes
nothing.  (In general a second application can shrink the output further:
see the counterexample.) -/
theorem c3_peephole_idempotent_of_clean (c : List BCInstr)
    (hjmp : noJmpToNext (afterMovJmp c) = true)
    (hadj : noAdjLabels (afterMovJmp c) = true) :
    peephole (peephole c) = peephole c := by
  have hfix : peephole c = afterMovJmp c := by
    unfold peephole
    exact collapse_eq_self _ hadj
  rw [hfix]
  have hmov : remove_mov_self (afterMovJmp c) = afterMovJmp c :=
    List.filter_eq_self.mpr (by
      intro x hx
      exact (List.all_eq_true.mp (afterMovJmp_all_movOk c)) x hx)
  unfold peephole
  rw [hmov, remove_jmp_eq_self _ hjmp, collapse_eq_self _ hadj]

/-- Witness for the amended C3 at a concrete sequence containing a self-move,
a removable jump and no adjacent labels. -/
theorem c3_peephole_idempotent_witness :
    peephole (peephole [BCInstr.BMov "a" "a", BCInstr.BJmp "L1",
        BCInstr.BLabel "L1", BCInstr.BPrint "x", BCInstr.BLabel "L2"]) =
      peephole [BCInstr.BMov "a" "a", BCInstr.BJmp "L1",
        BCInstr.BLabel "L1", BCInstr.BPrint "x", BCInstr.BLabel "L2"] :=
  c3_peephole_idempotent_of_clean _ (by decide) (by decide)

end Peephole

/-- Claim C3 as stated: `peephole` is idempotent on every bytecode sequence. -/
def peepholeIdempotent : Prop :=
  ∀ c : List BCInstr, Peephole.peephole (Peephole.peephole c) = Peephole.peephole c

/-- C3 counterexample: on `[JMP L1, JMP L1, LABEL L1]` the jump-removal pass
drops only the second jump (it walks left to right), so `peephole` returns
`[JMP L1, LABEL L1]` and a second application removes the remaining jump:
`peephole` is not idempotent. -/
theorem c3_peephole_not_idempotent : ¬ peepholeIdempotent := by
  intro h
  have := h [BCInstr.BJmp "L1", BCInstr.BJmp "L1", BCInstr.BLabel "L1"]
  revert this
  decide

/- ### C2 -/

/-- C2 counterexample: the claim that the VM never surfaces a runtime error is
false — executing `BIN x, /, 1, 0` raises `ZeroDivisionError` (a `step` result
of `none`). -/
theorem c2_vm_division_by_zero_raises : ¬ vmNeverRaises := by
  intro h
  have h1 := h (VM.mkVM [.BBin "x" "/" "1" "0"])
  have h2 : VM.step (VM.mkVM [.BBin "x" "/" "1" "0"]) = none := by rfl
  rw [h2] at h1
  simp at h1

theorem evalBin_isSome (op : String) (a b : Rat)
    (hop : op ∈ (["+", "-", "*", "/", "%", "<", "<=", ">", ">=",
                  "==", "!=", "&&", "||"] : List String))
    (hdiv : op = "/" → b ≠ 0)
    (hmod : op = "%" → VM.pyTrunc b ≠ 0) :
    (VM.evalBin op a b).isSome = true := by
  simp only [List.mem_cons, List.not_mem_nil, or_false] at hop
  rcases hop with rfl | rfl | rfl | rfl | rfl | rfl | rfl | rfl | rfl | rfl | rfl | rfl | rfl <;>
    simp [VM.evalBin]
  · exact hdiv rfl
  · exact hmod rfl

theorem evalUnary_isSome (op : String) (a : Rat)
    (hop : op ∈ (["!", "+", "-"] : List String)) :
    (VM.evalUnary op a).isSome = true := by
  simp only [List.mem_cons, List.not_mem_nil, or_false] at hop
  rcases hop with rfl | rfl | rfl <;> simp [VM.evalUnary]

/-- C2 amended: the defensive behaviors the source actually has.  A `JMP` or
`IFFALSE` whose label is unknown falls through to the next instruction; a
`CALL` to an unknown function is a no-op; an operand that is no numeric
literal and absent from the current and global environments reads as `0`;
and `BIN`/`UNARY` produce a value and continue for every KNOWN operator,
PROVIDED `/` has a non-zero divisor and `%` a non-zero truncated divisor —
outside those conditions the source raises (see the counterexample). -/
theorem c2_vm_defensive :
    (∀ (st : VM.VMState) (l : String), st.pc < st.n →
        st.code.get? st.pc = some (.BJmp l) → dictGet st.labels l = none →
        VM.step st = some (true, { st with pc := st.pc + 1 })) ∧
    (∀ (st : VM.VMState) (cnd l : String), st.pc < st.n →
        st.code.get? st.pc = some (.BIfFalse cnd l) → dictGet st.labels l = none →
        VM.step st = some (true, { st with pc := st.pc + 1 })) ∧
    (∀ (st : VM.VMState) (d : Option String) (f : String) (args : List String),
        st.pc < st.n → st.code.get? st.pc = some (.BCall d f args) →
        dictGet st.func_meta f = none →
        VM.step st = some (true, { st with pc := st.pc + 1 })) ∧
    (∀ (st : VM.VMState) (x : String), parseNum x = none →
        (∀ env, st.localEnv = some env → dictGet env x = none) →
        dictGet st.global_env x = none → st.getOp x = 0) ∧
    (∀ (st : VM.VMState) (d op a b : String), st.pc < st.n →
        st.code.get? st.pc = some (.BBin d op a b) →
        op ∈ (["+", "-", "*", "/", "%", "<", "<=", ">", ">=",
               "==", "!=", "&&", "||"] : List String) →
        (op = "/" → st.getOp b ≠ 0) →
        (op = "%" → VM.pyTrunc (st.getOp b) ≠ 0) →
        ∃ v, VM.step st =
          some (true, VM.VMState.setVar { st with pc := st.pc + 1 } d v)) ∧
    (∀ (st : VM.VMState) (d op a : String), st.pc < st.n →
        st.code.get? st.pc = some (.BUnary d op a) →
        op ∈ (["!", "+", "-"] : List String) →
        ∃ v, VM.step st =
          some (true, VM.VMState.setVar { st with pc := st.pc + 1 } d v)) := by
  refine ⟨?_, ?_, ?_, ?_, ?_, ?_⟩
  · intro st l hpc hcode hlab
    unfold VM.step
    rw [if_neg (Nat.not_le.mpr hpc), hcode]
    simp [hlab]
  · intro st cnd l hpc hcode hlab
    unfold VM.step
    rw [if_neg (Nat.not_le.mpr hpc), hcode]
    by_cases ht : VM.is_true (VM.VMState.getOp { st with pc := st.pc + 1 } cnd) = true
    · simp [ht]
    · simp [ht, hlab]
  · intro st d f args hpc hcode hmeta
    unfold VM.step
    rw [if_neg (Nat.not_le.mpr hpc), hcode]
    simp [hmeta]
  · intro st x hnum hloc hglob
    unfold VM.VMState.getOp
    rw [hnum]
    cases hl : st.localEnv with
    | none => simp [hglob]
    | some env => simp [hloc env hl, hglob]
  · intro st d op a b hpc hcode hop hdiv hmod
    have hs : (VM.evalBin op (st.getOp a) (st.getOp b)).isSome = true :=
      evalBin_isSome op (st.getOp a) (st.getOp b) hop hdiv hmod
    obtain ⟨v, hv⟩ := Option.isSome_iff_exists.mp hs
    refine ⟨v, ?_⟩
    have hget : ∀ y : String,
        VM.VMState.getOp { st with pc := st.pc + 1 } y = st.getOp y := fun _ => rfl
    unfold VM.step
    rw [if_neg (Nat.not_le.mpr hpc), hcode]
    simp [hget, hv]
  · intro st d op a hpc hcode hop
    have hs : (VM.evalUnary op (st.getOp a)).isSome = true :=
      evalUnary_isSome op (st.getOp a) hop
    obtain ⟨v, hv⟩ := Option.isSome_iff_exists.mp hs
    refine ⟨v, ?_⟩
    have hget : ∀ y : String,
        VM.VMState.getOp { st with pc := st.pc + 1 } y = st.getOp y := fun _ => rfl
    unfold VM.step
    rw [if_neg (Nat.not_le.mpr hpc), hcode]
    simp [hget, hv]

/-- Witness for the amended C2, one concrete machine per conjunct. -/
theorem c2_vm_defensive_witness :
    VM.step (VM.mkVM [.BJmp "L"]) =
      some (true, { VM.mkVM [.BJmp "L"] with pc := 1 }) ∧
    VM.step (VM.mkVM [.BIfFalse "0" "L"]) =
      some (true, { VM.mkVM [.BIfFalse "0" "L"] with pc := 1 }) ∧
    VM.step (VM.mkVM [.BCall (some "r") "g" ["1"]]) =
      some (true, { VM.mkVM [.BCall (some "r") "g" ["1"]] with pc := 1 }) ∧
    (VM.mkVM []).getOp "y" = 0 ∧
    (∃ v, VM.step (VM.mkVM [.BBin "x" "+" "a" "b"]) =
      some (true, VM.VMState.setVar
        { VM.mkVM [.BBin "x" "+" "a" "b"] with pc := 1 } "x" v)) ∧
    (∃ v, VM.step (VM.mkVM [.BUnary "x" "!" "a"]) =
      some (true, VM.VMState.setVar
        { VM.mkVM [.BUnary "x" "!" "a"] with pc := 1 } "x" v)) :=
  ⟨c2_vm_defensive.1 _ "L" (by decide) rfl rfl,
   c2_vm_defensive.2.1 _ "0" "L" (by decide) rfl rfl,
   c2_vm_defensive.2.2.1 _ (some "r") "g" ["1"] (by decide) rfl rfl,
   c2_vm_defensive.2.2.2.1 _ "y" rfl (fun _ h => Option.noConfusion h) rfl,
   c2_vm_defensive.2.2.2.2.1 _ "x" "+" "a" "b" (by decide) rfl (by decide)
     (fun h => absurd h (by decide)) (fun h => absurd h (by decide)),
   c2_vm_defensive.2.2.2.2.2 _ "x" "!" "a" (by decide) rfl (by decide)⟩

/- ### C8 -/

/-- C8: executing `RET` with a non-empty call stack pops the frame, restores
the saved environment, writes the return value (the operand resolved in the
callee's environment, or `0` when absent) to the frame's return destination
when present, and jumps to the saved return pc — everything else (code,
output, globals apart from a global return destination) is untouched, as the
explicit result state shows.  With an empty call stack it ends execution
(result `false`) with the state unchanged but for `pc = n`: no output line is
appended. -/
theorem c8_ret_frame_semantics :
    (∀ (st : VM.VMState) (v : Option String), st.pc < st.n →
        st.code.get? st.pc = some (.BRet v) → st.stack = [] →
        VM.step st = some (false, { st with pc := st.n })) ∧
    (∀ (st : VM.VMState) (v : Option String) (frame : VM.Frame)
        (rest : List VM.Frame), st.pc < st.n →
        st.code.get? st.pc = some (.BRet v) → st.stack = frame :: rest →
        VM.step st = some (true,
          match frame.ret_dst with
          | some d =>
            VM.VMState.setVar
              { st with stack := rest, localEnv := frame.env, pc := frame.ret_pc }
              d (match v with | some x => st.getOp x | none => 0)
          | none =>
            { st with stack := rest, localEnv := frame.env, pc := frame.ret_pc })) := by
  constructor
  · intro st v hpc hcode hstack
    unfold VM.step
    rw [if_neg (Nat.not_le.mpr hpc), hcode]
    simp only [hstack]
  · intro st v frame rest hpc hcode hstack
    have hget : ∀ (stk : List VM.Frame) (y : String),
        VM.VMState.getOp { st with pc := st.pc + 1, stack := stk } y = st.getOp y :=
      fun _ _ => rfl
    unfold VM.step
    rw [if_neg (Nat.not_le.mpr hpc), hcode]
    simp only [hstack]
    cases hv : v with
    | none =>
      cases hd : frame.ret_dst with
      | none => simp [hd, VM.VMState.setVar]
      | some d => cases he : frame.env <;> simp [hd, he, VM.VMState.setVar]
    | some x =>
      cases hd : frame.ret_dst with
      | none => simp [hd, hget, VM.VMState.setVar]
      | some d => cases he : frame.env <;> simp [hd, he, hget, VM.VMState.setVar]

/-- Witness for C8: a concrete `RET r` under a frame writing into the global
destination `x`, and a concrete top-level `RET`. -/
theorem c8_ret_frame_semantics_witness :
    VM.step
      { code := [.BRet (some "r")], labels := [], func_meta := [], pc := 0, n := 1,
        stack := [⟨none, 5, some "x"⟩], global_env := [("g", 7)],
        localEnv := some [("r", 3)], output := ["out"] } =
      some (true,
        { code := [.BRet (some "r")], labels := [], func_meta := [], pc := 5, n := 1,
          stack := [], global_env := [("g", 7), ("x", 3)],
          localEnv := none, output := ["out"] }) ∧
    VM.step
      { code := [.BRet none], labels := [], func_meta := [], pc := 0, n := 1,
        stack := [], global_env := [], localEnv := none, output := ["out"] } =
      some (false,
        { code := [.BRet none], labels := [], func_meta := [], pc := 1, n := 1,
          stack := [], global_env := [], localEnv := none, output := ["out"] }) := by
  constructor
  · have h := c8_ret_frame_semantics.2
      { code := [.BRet (some "r")], labels := [], func_meta := [], pc := 0, n := 1,
        stack := [⟨none, 5, some "x"⟩], global_env := [("g", 7)],
        localEnv := some [("r", 3)], output := ["out"] }
      (some "r") ⟨none, 5, some "x"⟩ [] (by decide) rfl rfl
    rw [h]
    rfl
  · have h := c8_ret_frame_semantics.1
      { code := [.BRet none], labels := [], func_meta := [], pc := 0, n := 1,
        stack := [], global_env := [], localEnv := none, output := ["out"] }
      none (by decide) rfl rfl
    rw [h]

/- ### C9 -/

theorem dictGet_dictSet {α : Type} (m : List (String × α)) (k : String) (v : α)
    (x : String) :
    dictGet (dictSet m k v) x = if k = x then some v else dictGet m x := by
  induction m with
  | nil =>
    by_cases h : k = x <;> simp [dictSet, dictGet, h]
  | cons hd tl ih =>
    obtain ⟨k', v'⟩ := hd
    by_cases h1 : k' = k
    · subst h1
      by_cases h2 : k' = x <;> simp [dictSet, dictGet, h2]
    · by_cases h2 : k' = x
      · subst h2
        have h3 : ¬(k = k') := fun h => h1 h.symm
        simp [dictSet, dictGet, h1, h3]
      · simp [dictSet, dictGet, h1, h2, ih]

/-- The parameter-binding fold of the `CALL` case: a fresh environment from
`params` and the evaluated argument values (missing ones default to `0`). -/
def bindParamsEnv (params : List String) (vals : List Rat) : List (String × Rat) :=
  params.enum.foldl (fun env pi => dictSet env pi.2 (vals.getD pi.1 0)) []

theorem bindFold_untouched (ps : List String) (vals : List Rat) (x : String)
    (hx : x ∉ ps) :
    ∀ (n : Nat) (env : List (String × Rat)),
      dictGet ((ps.enumFrom n).foldl
        (fun env pi => dictSet env pi.2 (vals.getD pi.1 0)) env) x = dictGet env x := by
  induction ps with
  | nil => intro n env; rfl
  | cons p rest ih =>
    intro n env
    have hxp : ¬(p = x) := fun h => hx (h ▸ List.mem_cons_self p rest)
    have hxr : x ∉ rest := fun h => hx (List.mem_cons_of_mem p h)
    simp only [List.enumFrom, List.foldl_cons]
    rw [ih hxr (n + 1) _, dictGet_dictSet, if_neg hxp]

theorem bindFold_domain (ps : List String) (vals : List Rat) (x : String) :
    ∀ (n : Nat) (env : List (String × Rat)),
      (dictGet ((ps.enumFrom n).foldl
        (fun env pi => dictSet env pi.2 (vals.getD pi.1 0)) env) x).isSome = true →
      x ∈ ps ∨ (dictGet env x).isSome = true := by
  induction ps with
  | nil => intro n env h; exact Or.inr h
  | cons p rest ih =>
    intro n env h
    simp only [List.enumFrom, List.foldl_cons] at h
    rcases ih (n + 1) _ h with hin | henv
    · exact Or.inl (List.mem_cons_of_mem p hin)
    · rw [dictGet_dictSet] at henv
      by_cases hp : p = x
      · exact Or.inl (hp ▸ List.mem_cons_self p rest)
      · rw [if_neg hp] at henv
        exact Or.inr henv

theorem bindFold_values (ps : List String) (vals : List Rat) (hnd : ps.Nodup) :
    ∀ (n : Nat) (env : List (String × Rat)) (i : Nat) (hi : i < ps.length),
      dictGet ((ps.enumFrom n).foldl
        (fun env pi => dictSet env pi.2 (vals.getD pi.1 0)) env) (ps.get ⟨i, hi⟩) =
        some (vals.getD (n + i) 0) := by
  induction ps with
  | nil => intro n env i hi; exact absurd hi (by simp)
  | cons p rest ih =>
    intro n env i hi
    simp only [List.enumFrom, List.foldl_cons]
    have hnd' : rest.Nodup := (List.nodup_cons.mp hnd).2
    have hp : p ∉ rest := (List.nodup_cons.mp hnd).1
    cases i with
    | zero =>
      simp only [List.get]
      rw [bindFold_untouched rest vals p hp (n + 1) _, dictGet_dictSet, if_pos rfl]
      simp
    | succ j =>
      have hj : j < rest.length := by
        simp only [List.length_cons] at hi
        omega
      have := ih hnd' (n + 1) (dictSet env p (vals.getD n 0)) j hj
      simp only [List.get] at this ⊢
      rw [this, (by omega : n + 1 + j = n + (j + 1))]

/-- C9: a `CALL` whose argument list is longer than the callee's parameter
list evaluates ALL argument operands in the caller's environment, pushes a
frame recording the caller's environment, the return pc and the destination,
and enters a fresh environment that binds exactly the parameters — the i-th
parameter (the parameter names being distinct) to the i-th argument value —
with the extra values silently ignored: no error, no extra binding. -/
theorem c9_call_extra_args (st : VM.VMState) (d : Option String) (f : String)
    (args : List String) (meta : VM.FuncMeta)
    (hpc : st.pc < st.n) (hcode : st.code.get? st.pc = some (.BCall d f args))
    (hmeta : dictGet st.func_meta f = some meta)
    (hlen : meta.params.length < args.length) :
    VM.step st = some (true,
      { st with
          pc := meta.start + 1,
          stack := ⟨st.localEnv, st.pc + 1, d⟩ :: st.stack,
          localEnv := some (bindParamsEnv meta.params (args.map st.getOp)) }) ∧
    (∀ x, (dictGet (bindParamsEnv meta.params (args.map st.getOp)) x).isSome = true →
      x ∈ meta.params) ∧
    (meta.params.Nodup →
      ∀ (i : Nat) (hi : i < meta.params.length),
        dictGet (bindParamsEnv meta.params (args.map st.getOp))
            (meta.params.get ⟨i, hi⟩) =
          some (st.getOp (args.get ⟨i, by omega⟩))) := by
  refine ⟨?_, ?_, ?_⟩
  · unfold VM.step
    rw [if_neg (Nat.not_le.mpr hpc), hcode]
    simp only [hmeta]
    rfl
  · intro x hx
    rcases bindFold_domain meta.params (args.map st.getOp) x 0 [] (by
      simpa [bindParamsEnv, List.enum] using hx) with h | h
    · exact h
    · simp [dictGet] at h
  · intro hnd i hi
    have hv := bindFold_values meta.params (args.map st.getOp) hnd 0 [] i hi
    simp only [bindParamsEnv, List.enum]
    rw [hv]
    congr 1
    rw [List.getD_eq_getElem?_getD, List.getElem?_map]
    have hia : i < args.length := by omega
    simp [List.getElem?_eq_getElem hia]

/-- A machine paused on `CALL r = g(1, 2)` where `g` has one parameter. -/
def c9State : VM.VMState :=
  { code := [.BFunc "g" ["p"], .BEndFunc "g", .BCall (some "r") "g" ["1", "2"]],
    labels := [], func_meta := [("g", ⟨0, 1, ["p"]⟩)], pc := 2, n := 3,
    stack := [], global_env := [], localEnv := none, output := [] }

/-- Witness for C9 at `c9State`: the call binds `p` and nothing else. -/
theorem c9_call_extra_args_witness :
    VM.step c9State = some (true,
      { c9State with
          pc := 1,
          stack := ⟨c9State.localEnv, c9State.pc + 1, some "r"⟩ :: c9State.stack,
          localEnv := some (bindParamsEnv ["p"] (["1", "2"].map c9State.getOp)) }) ∧
    (∀ x, (dictGet (bindParamsEnv ["p"] (["1", "2"].map c9State.getOp)) x).isSome = true →
      x ∈ (["p"] : List String)) ∧
    ((["p"] : List String).Nodup →
      ∀ (i : Nat) (hi : i < (["p"] : List String).length),
        dictGet (bindParamsEnv ["p"] (["1", "2"].map c9State.getOp))
            ((["p"] : List String).get ⟨i, hi⟩) =
          some (c9State.getOp ((["1", "2"] : List String).get
            ⟨i, by simp only [List.length_cons, List.length_nil] at hi ⊢; omega⟩))) :=
  c9_call_extra_args c9State (some "r") "g" ["1", "2"] ⟨0, 1, ["p"]⟩
    (by decide) rfl rfl (by decide)

/- ### C7 -/

namespace Lexer

theorem exists_eof_cons (x : Token) (ts : List Token)
    (h : ∃ l2 c2, ts.getLast? = some ⟨.EOF, "", l2, c2⟩) :
    ∃ l2 c2, (x :: ts).getLast? = some ⟨.EOF, "", l2, c2⟩ := by
  obtain ⟨l2, c2, hh⟩ := h
  refine ⟨l2, c2, ?_⟩
  cases ts with
  | nil => simp at hh
  | cons z t => rw [List.getLast?_cons_cons]; exact hh

theorem dropWhile_len_le (p : Char → Bool) (L : List Char) :
    (L.dropWhile p).length ≤ L.length :=
  (List.dropWhile_sublist (l := L) p).length_le

/-- Every run of the lexer automaton ends by emitting the end-of-input
token, whatever the input and mode (induction on the input length over the
dispatch of `lexGo`). -/
theorem lexGo_ends_eof (n : Nat) : ∀ (cs : List Char), cs.length ≤ n →
    ∀ (l c : Nat) (m : LexMode),
    ∃ l2 c2, (lexGo cs l c m).getLast? = some ⟨.EOF, "", l2, c2⟩ := by
  induction n with
  | zero =>
    intro cs hlen l c m
    have hnil : cs = [] := List.eq_nil_of_length_eq_zero (Nat.le_zero.mp hlen)
    subst hnil
    exact ⟨l, c, by rw [lexGo]; rfl⟩
  | succ k ih =>
    intro cs hlen l c m
    rw [lexGo.eq_def]
    split
    · exact ⟨_, _, rfl⟩
    · rename_i x1 x2 x3 x4 ch rest
      simp only [List.length_cons] at hlen
      split_ifs with h1 h2
      · exact ih rest (by omega) _ _ _
      · exact ⟨_, _, rfl⟩
      · exact ih rest (by omega) _ _ _
    · rename_i x1 x2 x3 x4 rest
      simp only [List.length_cons] at hlen
      exact ih rest (by omega) _ _ _
    · rename_i x1 x2 x3 x4 ch rest hg
      simp only [List.length_cons] at hlen
      split_ifs with h1 h2
      · exact ⟨_, _, rfl⟩
      · exact ih rest (by omega) _ _ _
      · exact ih rest (by omega) _ _ _
    · rename_i x1 x2 x3 x4 rest
      simp only [List.length_cons] at hlen
      exact ih rest (by omega) _ _ _
    · rename_i x1 x2 x3 x4 rest
      simp only [List.length_cons] at hlen
      exact ih rest (by omega) _ _ _
    · rename_i x1 x2 x3 x4 ch rest hg1 hg2
      simp only [List.length_cons] at hlen
      split_ifs with h1 h2 h3 h4 h5
      · exact ih rest (by omega) _ _ _
      · exact ih rest (by omega) _ _ _
      · exact ⟨_, _, rfl⟩
      · exact exists_eof_cons _ _ (ih (rest.dropWhile isIdentChar)
          (le_trans (dropWhile_len_le _ _) (by omega)) _ _ _)
      · split
        · rename_i d r2 hr
          have h7 := congrArg List.length hr
          simp only [List.length_cons] at h7
          have h6 := dropWhile_len_le Char.isDigit rest
          split_ifs with hd
          · exact exists_eof_cons _ _ (ih (r2.dropWhile Char.isDigit)
              (le_trans (dropWhile_len_le _ _) (by omega)) _ _ _)
          · exact exists_eof_cons _ _ (ih ('.' :: d :: r2)
              (by simp only [List.length_cons]; omega) _ _ _)
        · rename_i hne
          have h6 := dropWhile_len_le Char.isDigit rest
          exact exists_eof_cons _ _
            (ih (rest.dropWhile Char.isDigit) (by omega) _ _ _)
      · split
        · rename_i tt htt
          have h6 : rest.tail.length ≤ rest.length := by cases rest <;> simp
          exact exists_eof_cons _ _ (ih rest.tail (by omega) _ _ _)
        · split
          · rename_i tt htt
            exact exists_eof_cons _ _ (ih rest (by omega) _ _ _)
          · exact ih rest (by omega) _ _ _

theorem hasCloser_tail (a : Char) (l : List Char)
    (h : hasCloser (a :: l) = false) : hasCloser l = false := by
  rw [hasCloser.eq_def] at h
  split at h
  · exact absurd h (by simp)
  · rename_i x b rest heq
    injection heq with e1 e2
    subst e2
    exact h
  · rename_i heq
    exact absurd heq (List.cons_ne_nil _ _)

/-- Inside an unclosed block comment (no `*/` anywhere in the remainder), the
scanner silently consumes everything and yields exactly one end-of-input
token. -/
theorem lexGo_blockC_unterminated : ∀ (q : List Char), hasCloser q = false →
    ∀ (l c : Nat), ∃ l2 c2, lexGo q l c .blockC = [⟨.EOF, "", l2, c2⟩] := by
  intro q
  induction q with
  | nil => intro h l c; exact ⟨l, c, by rw [lexGo]⟩
  | cons ch rest ihq =>
    intro h l c
    have hrest : hasCloser rest = false := hasCloser_tail ch rest h
    rw [lexGo.eq_def]
    split
    · rename_i heq
      exact absurd heq (List.cons_ne_nil _ _)
    · rename_i heq1 heq2
      exact absurd heq2 (by decide)
    · rename_i heq1 heq2
      exfalso
      rw [heq1] at h
      simp [hasCloser] at h
    · rename_i hg heq1 heq2
      injection heq1 with e1 e2
      subst e1
      subst e2
      split_ifs with h1 h2
      · exact ⟨_, _, rfl⟩
      · exact ihq hrest _ _
      · exact ihq hrest _ _
    · rename_i heq1 heq2
      exact absurd heq2 (by decide)
    · rename_i heq1 heq2
      exact absurd heq2 (by decide)
    · rename_i hg1 hg2 heq1 heq2
      exact absurd heq2 (by decide)

end Lexer

/-- Claim C7's second half as stated: for every source splitting as
`p ++ "/*" ++ q` with no `*/` from the `*` on, the tokens are exactly those
of `p` followed by end-of-input (the end-of-input token always being last,
comparing the lists without it). -/
def lexerPrefixClaim : Prop :=
  ∀ p q : String, Lexer.hasCloser ('*' :: q.toList) = false →
    (Lexer.lex (p ++ "/*" ++ q)).dropLast = (Lexer.lex p).dropLast

/-- C7 counterexample: with `p = "//"` and `q = "\nx"` the opener `/*` sits
inside a line comment, the newline in `q` revives scanning, and the combined
source lexes to `[IDENT x, EOF]` while `p` alone lexes to `[EOF]` — the
claimed prefix equation fails. -/
theorem c7_prefix_claim_false : ¬ lexerPrefixClaim := by
  intro h
  have hc := h "//" "\nx" (by decide)
  apply absurd hc
  simp [Lexer.lex, Lexer.lexGo, Lexer.nul, Lexer.isIdentStart, Lexer.isIdentChar,
    Lexer.singleType, Lexer.KEYWORDS, Lexer.twoCharType, dictGet]

/-- C7 amended: (1) unchanged, for EVERY source string the token list ends
with the end-of-input token; (2) whenever the scanner in its token-dispatch
state reaches `/*` with no `*/` in the remaining text, it consumes the rest
silently and produces exactly the end-of-input token — no diagnostic exists
anywhere in the lexer.  (As stated, with the `/*` located by string split
alone, the claim is false: see the counterexample.) -/
theorem c7_lexer_eof_and_unterminated :
    (∀ src : String,
      ∃ l2 c2, (Lexer.lex src).getLast? = some ⟨.EOF, "", l2, c2⟩) ∧
    (∀ (q : List Char) (l c : Nat), Lexer.hasCloser q = false →
      ∃ l2 c2, Lexer.lexGo ('/' :: '*' :: q) l c .code = [⟨.EOF, "", l2, c2⟩]) := by
  constructor
  · intro src
    exact Lexer.lexGo_ends_eof src.toList.length src.toList le_rfl 1 1 .code
  · intro q l c hq
    have hstep : Lexer.lexGo ('/' :: '*' :: q) l c .code =
        Lexer.lexGo q l (c + 2) .blockC := by
      rw [Lexer.lexGo]
    rw [hstep]
    exact Lexer.lexGo_blockC_unterminated q hq l (c + 2)

/-- Witness for C7 at a concrete source and a concrete unterminated tail. -/
theorem c7_lexer_eof_and_unterminated_witness :
    (∃ l2 c2, (Lexer.lex "int x = 5;").getLast? =
      some ⟨.EOF, "", l2, c2⟩) ∧
    (∃ l2 c2, Lexer.lexGo ('/' :: '*' :: " open".toList) 1 1 .code =
      [⟨.EOF, "", l2, c2⟩]) :=
  ⟨c7_lexer_eof_and_unterminated.1 "int x = 5;",
   c7_lexer_eof_and_unterminated.2 " open".toList 1 1 (by decide)⟩

/- ### C10 -/

namespace Semantics

/-- Everything but the diagnostics is preserved (scopes, signature table,
current return type). -/
def presFC (st st' : AnState) : Prop :=
  st'.scopes = st.scopes ∧ st'.funcs = st.funcs ∧ st'.current_ret = st.current_ret

theorem presFC_refl (st : AnState) : presFC st st := ⟨rfl, rfl, rfl⟩

theorem presFC_err (st : AnState) (l c : Nat) (m : String) :
    presFC st (err st l c m) := ⟨rfl, rfl, rfl⟩

theorem presFC_trans {a b c : AnState} (h1 : presFC a b) (h2 : presFC b c) :
    presFC a c :=
  ⟨h2.1.trans h1.1, h2.2.1.trans h1.2.1, h2.2.2.trans h1.2.2⟩

mutual

/-- Visiting an expression only reads the scopes: everything but the
diagnostics is preserved. -/
theorem exprPres (st : AnState) (e : Expr) :
    presFC st (visitExpr st e).2.2 := by
  cases e with
  | Assign name value l c inf =>
    simp only [visitExpr]
    cases hres : resolve st name with
    | none =>
      exact presFC_trans (presFC_err st l c _) (exprPres (err st l c _) value)
    | some symType =>
      by_cases ha : (!assignable symType (visitExpr st value).2.1) = true
      · simp only [ha, if_pos]
        exact presFC_trans (exprPres st value) (presFC_err _ l c _)
      · simp only [Bool.not_eq_true] at ha
        simp only [ha, Bool.false_eq_true, if_false]
        exact exprPres st value
  | Call name args l c inf =>
    simp only [visitExpr]
    cases hsig : dictGet st.funcs name with
    | none =>
      exact presFC_trans (presFC_err st l c _) (argsAllPres (err st l c _) args)
    | some sig =>
      by_cases hn : (!(args.length = sig.params.length)) = true
      · simp only [hn, if_pos]
        exact presFC_trans (presFC_err st l c _)
          (zipArgsPres (err st l c _) sig.params args name l c)
      · simp only [hn, Bool.false_eq_true, if_false]
        exact zipArgsPres st sig.params args name l c
  | Lit v kind inf => exact presFC_refl st
  | Var name l c inf =>
    simp only [visitExpr]
    cases hres : resolve st name with
    | none => exact presFC_err st l c _
    | some t => exact presFC_refl st
  | Unary op right inf =>
    simp only [visitExpr]
    split_ifs <;>
      first
      | exact exprPres st right
      | exact presFC_trans (exprPres st right) (presFC_err _ 0 0 _)
  | Binary left op right inf =>
    simp only [visitExpr]
    have h1 := exprPres st left
    have h2 := exprPres (visitExpr st left).2.2 right
    split_ifs <;>
      first
      | exact presFC_trans h1 h2
      | exact presFC_trans h1 (presFC_trans h2 (presFC_err _ 0 0 _))
  | Grouping e inf =>
    simp only [visitExpr]
    exact exprPres st e
termination_by sizeOf e

theorem argsAllPres (st : AnState) (args : List Expr) :
    presFC st (visitArgsAll st args).2 := by
  cases args with
  | nil => exact presFC_refl st
  | cons a rest =>
    simp only [visitArgsAll]
    exact presFC_trans (exprPres st a) (argsAllPres (visitExpr st a).2.2 rest)
termination_by sizeOf args

theorem zipArgsPres (st : AnState) (ps : List (String × String))
    (args : List Expr) (name : String) (l c : Nat) :
    presFC st (visitZipArgs st ps args name l c).2 := by
  cases args with
  | nil => cases ps <;> exact presFC_refl st
  | cons a rest =>
    cases ps with
    | nil => exact presFC_refl st
    | cons p ps2 =>
      simp only [visitZipArgs]
      split_ifs with h
      · exact presFC_trans (exprPres st a)
          (presFC_trans (presFC_err _ l c _)
            (zipArgsPres (err (visitExpr st a).2.2 l c _) ps2 rest name l c))
      · exact presFC_trans (exprPres st a)
          (zipArgsPres (visitExpr st a).2.2 ps2 rest name l c)
termination_by sizeOf args

end

/-- A bare variable declaration. -/
def isVarDeclB : Stmt → Bool
  | .VarDecl .. => true
  | _ => false

mutual

/-- The statement shape every parser-produced statement has: an `if` branch
or a `while` body is never a bare `VarDecl` (the parser's `statement()` only
returns `For`, `While`, `If`, `Print`, `Return`, `Block` or `ExprStmt`
nodes), down every If/While spine.  `Block` and `For` bodies need no
condition: they are bracketed by their own push/pop. -/
def noBareBranchDecl : Stmt → Bool
  | .If _ t e => !isVarDeclB t && noBareBranchDecl t && noBareOpt e
  | .While _ b => !isVarDeclB b && noBareBranchDecl b
  | _ => true

def noBareOpt : Option Stmt → Bool
  | none => true
  | some b => !isVarDeclB b && noBareBranchDecl b

end

/-- The effect of a (possibly failing) `define` on one scope. -/
def defineS (h : List (String × String)) (n t : String) : List (String × String) :=
  if (dictGet h n).isSome then h else dictSet h n t

/-- The global scope accumulated over the top-level statements: each
top-level `VarDecl` that is not yet present is appended. -/
def topFold (g : List (String × String)) (prog : List Stmt) :
    List (String × String) :=
  prog.foldl (fun g s =>
    match s with
    | .VarDecl t n _ _ _ => defineS g n t
    | _ => g) g

def topLevelScope (prog : Program) : List (String × String) := topFold [] prog

/-- A visit modifies at most the innermost scope: length and tail of the
scope stack, the signature table and `current_ret` are preserved. -/
def HO (st st' : AnState) : Prop :=
  st'.scopes.length = st.scopes.length ∧ st'.scopes.tail = st.scopes.tail ∧
  st'.funcs = st.funcs ∧ st'.current_ret = st.current_ret

theorem HO_refl (st : AnState) : HO st st := ⟨rfl, rfl, rfl, rfl⟩

theorem HO_trans {a b c : AnState} (h1 : HO a b) (h2 : HO b c) : HO a c :=
  ⟨h2.1.trans h1.1, h2.2.1.trans h1.2.1, h2.2.2.1.trans h1.2.2.1,
   h2.2.2.2.trans h1.2.2.2⟩

theorem HO_of_presFC {a b : AnState} (h : presFC a b) : HO a b :=
  ⟨by rw [h.1], by rw [h.1], h.2.1, h.2.2⟩

theorem HO_err (st : AnState) (l c : Nat) (m : String) : HO st (err st l c m) :=
  ⟨rfl, rfl, rfl, rfl⟩

theorem HO_define (st : AnState) (n t : String) : HO st (define st n t).2 := by
  unfold define
  cases hsc : st.scopes with
  | nil => exact HO_refl st
  | cons h rest =>
    by_cases hp : (dictGet h n).isSome = true
    · simp only [hp, if_pos]
      exact HO_refl st
    · simp only [hp, Bool.false_eq_true, if_false]
      exact ⟨by simp [hsc], by simp [hsc], rfl, rfl⟩

/-- A push/visit/pop sandwich restores the scope stack exactly. -/
theorem pop_after_push {st st2 : AnState} (h : HO (push_scope st) st2) :
    (pop_scope st2).scopes = st.scopes ∧ (pop_scope st2).funcs = st.funcs ∧
    (pop_scope st2).current_ret = st.current_ret := by
  obtain ⟨hlen, htail, hfun, hret⟩ := h
  exact ⟨htail, hfun, hret⟩

theorem HO_wrap {st Y : AnState} (h : HO (push_scope st) Y) :
    HO st (pop_scope Y) := by
  obtain ⟨he, hf, hr⟩ := pop_after_push h
  exact ⟨by rw [he], by rw [he], hf, hr⟩

mutual

/-- `visit_stmt` modifies at most the innermost scope (and the diagnostics),
on every input. -/
theorem stmtHO (st : AnState) (s : Stmt) : HO st (visitStmt st s).2 := by
  cases s with
  | Block ss =>
    simp only [visitStmt]
    exact HO_wrap (listHO (push_scope st) ss)
  | VarDecl t n init l c =>
    simp only [visitStmt]
    cases init with
    | none =>
      dsimp only
      split_ifs
      · exact HO_trans (HO_define st n t) (HO_err _ l c _)
      · exact HO_define st n t
    | some e =>
      dsimp only
      split_ifs <;>
        first
        | exact HO_trans (HO_trans (HO_define st n t) (HO_err _ l c _))
            (HO_trans (HO_of_presFC (exprPres _ e)) (HO_err _ l c _))
        | exact HO_trans (HO_trans (HO_define st n t) (HO_err _ l c _))
            (HO_of_presFC (exprPres _ e))
        | exact HO_trans (HO_define st n t)
            (HO_trans (HO_of_presFC (exprPres _ e)) (HO_err _ l c _))
        | exact HO_trans (HO_define st n t) (HO_of_presFC (exprPres _ e))
  | If cond t e =>
    simp only [visitStmt]
    split_ifs <;>
      first
      | exact HO_trans (HO_of_presFC (exprPres st cond))
          (HO_trans (HO_err _ 0 0 _) (HO_trans (stmtHO _ t) (optStmtHO _ e)))
      | exact HO_trans (HO_of_presFC (exprPres st cond))
          (HO_trans (stmtHO _ t) (optStmtHO _ e))
  | While cond b =>
    simp only [visitStmt]
    split_ifs <;>
      first
      | exact HO_trans (HO_of_presFC (exprPres st cond))
          (HO_trans (HO_err _ 0 0 _) (stmtHO _ b))
      | exact HO_trans (HO_of_presFC (exprPres st cond)) (stmtHO _ b)
  | For i cond p b =>
    simp only [visitStmt]
    cases cond with
    | none =>
      dsimp only
      exact HO_wrap (HO_trans (optStmtHO _ i)
        (HO_trans (optStmtHO _ p) (stmtHO _ b)))
    | some c0 =>
      dsimp only
      split_ifs <;>
        first
        | exact HO_wrap (HO_trans (optStmtHO _ i)
            (HO_trans (HO_of_presFC (exprPres _ c0))
              (HO_trans (HO_err _ 0 0 _)
                (HO_trans (optStmtHO _ p) (stmtHO _ b)))))
        | exact HO_wrap (HO_trans (optStmtHO _ i)
            (HO_trans (HO_of_presFC (exprPres _ c0))
              (HO_trans (optStmtHO _ p) (stmtHO _ b))))
  | Print e =>
    simp only [visitStmt]
    exact HO_of_presFC (exprPres st e)
  | Return e =>
    simp only [visitStmt]
    cases st.current_ret with
    | none =>
      cases e with
      | none => exact HO_refl st
      | some ex =>
        dsimp only
        exact HO_of_presFC (exprPres st ex)
    | some ret =>
      cases e with
      | none =>
        dsimp only
        split_ifs
        · exact HO_err st 0 0 _
        · exact HO_refl st
      | some ex =>
        dsimp only
        split_ifs
        · exact HO_trans (HO_of_presFC (exprPres st ex)) (HO_err _ 0 0 _)
        · exact HO_of_presFC (exprPres st ex)
  | ExprStmt e =>
    simp only [visitStmt]
    exact HO_of_presFC (exprPres st e)
  | FunctionDecl rt name params body =>
    simp only [visitStmt]
    exact HO_refl st
termination_by sizeOf s

theorem optStmtHO (st : AnState) (o : Option Stmt) :
    HO st (visitOptStmt st o).2 := by
  cases o with
  | none => exact HO_refl st
  | some s =>
    simp only [visitOptStmt]
    exact stmtHO st s
termination_by sizeOf o

theorem listHO (st : AnState) (ss : List Stmt) :
    HO st (visitBlockList st ss).2 := by
  cases ss with
  | nil => exact HO_refl st
  | cons s rest =>
    cases s with
    | FunctionDecl rt name params body =>
      simp only [visitBlockList]
      exact HO_trans (HO_err st 0 0 _) (listHO _ rest)
    | Block ss2 =>
      simp only [visitBlockList]
      exact HO_trans (stmtHO st (.Block ss2)) (listHO _ rest)
    | VarDecl t n init l c =>
      simp only [visitBlockList]
      exact HO_trans (stmtHO st (.VarDecl t n init l c)) (listHO _ rest)
    | If cond t e =>
      simp only [visitBlockList]
      exact HO_trans (stmtHO st (.If cond t e)) (listHO _ rest)
    | While cond b =>
      simp only [visitBlockList]
      exact HO_trans (stmtHO st (.While cond b)) (listHO _ rest)
    | For i cond p b =>
      simp only [visitBlockList]
      exact HO_trans (stmtHO st (.For i cond p b)) (listHO _ rest)
    | Print e =>
      simp only [visitBlockList]
      exact HO_trans (stmtHO st (.Print e)) (listHO _ rest)
    | Return e =>
      simp only [visitBlockList]
      exact HO_trans (stmtHO st (.Return e)) (listHO _ rest)
    | ExprStmt e =>
      simp only [visitBlockList]
      exact HO_trans (stmtHO st (.ExprStmt e)) (listHO _ rest)
termination_by sizeOf ss

end

mutual

/-- On a parser-shaped statement other than a bare `VarDecl`, `visit_stmt`
restores the scope stack exactly. -/
theorem stmtExact (st : AnState) (s : Stmt) (hnv : isVarDeclB s = false)
    (h : noBareBranchDecl s = true) : (visitStmt st s).2.scopes = st.scopes := by
  cases s with
  | Block ss =>
    simp only [visitStmt]
    exact (pop_after_push (listHO (push_scope st) ss)).1
  | VarDecl t n init l c => simp [isVarDeclB] at hnv
  | If cond t e =>
    simp only [noBareBranchDecl, Bool.and_eq_true, Bool.not_eq_true'] at h
    obtain ⟨⟨h1, h2⟩, h3⟩ := h
    simp only [visitStmt]
    split_ifs <;>
      exact (optStmtExact _ e h3).trans
        ((stmtExact _ t h1 h2).trans (exprPres st cond).1)
  | While cond b =>
    simp only [noBareBranchDecl, Bool.and_eq_true, Bool.not_eq_true'] at h
    obtain ⟨h1, h2⟩ := h
    simp only [visitStmt]
    split_ifs <;>
      exact (stmtExact _ b h1 h2).trans (exprPres st cond).1
  | For i cond p b =>
    simp only [visitStmt]
    cases cond with
    | none =>
      dsimp only
      exact (pop_after_push (HO_trans (optStmtHO _ i)
        (HO_trans (optStmtHO _ p) (stmtHO _ b)))).1
    | some c0 =>
      dsimp only
      split_ifs <;>
        first
        | exact (pop_after_push (HO_trans (optStmtHO _ i)
            (HO_trans (HO_of_presFC (exprPres _ c0))
              (HO_trans (HO_err _ 0 0 _)
                (HO_trans (optStmtHO _ p) (stmtHO _ b)))))).1
        | exact (pop_after_push (HO_trans (optStmtHO _ i)
            (HO_trans (HO_of_presFC (exprPres _ c0))
              (HO_trans (optStmtHO _ p) (stmtHO _ b))))).1
  | Print e =>
    simp only [visitStmt]
    exact (exprPres st e).1
  | Return e =>
    simp only [visitStmt]
    cases st.current_ret with
    | none =>
      cases e with
      | none => rfl
      | some ex =>
        dsimp only
        exact (exprPres st ex).1
    | some ret =>
      cases e with
      | none =>
        dsimp only
        split_ifs <;> rfl
      | some ex =>
        dsimp only
        split_ifs <;> exact (exprPres st ex).1
  | ExprStmt e =>
    simp only [visitStmt]
    exact (exprPres st e).1
  | FunctionDecl rt name params body =>
    simp only [visitStmt]
termination_by sizeOf s

theorem optStmtExact (st : AnState) (o : Option Stmt) (h : noBareOpt o = true) :
    (visitOptStmt st o).2.scopes = st.scopes := by
  cases o with
  | none => rfl
  | some b =>
    simp only [noBareOpt, Bool.and_eq_true, Bool.not_eq_true'] at h
    simp only [visitOptStmt]
    exact stmtExact st b h.1 h.2
termination_by sizeOf o

end

/-- `visit_stmt` on a `VarDecl` with scope stack `g :: rest` updates exactly
the innermost scope, by the (possibly failing) `define`. -/
theorem stmtVarDecl (st : AnState) (g : List (String × String))
    (rest : List (List (String × String))) (hs : st.scopes = g :: rest)
    (t n : String) (init : Option Expr) (li c : Nat) :
    (visitStmt st (.VarDecl t n init li c)).2.scopes = defineS g n t :: rest := by
  simp only [visitStmt]
  unfold define defineS
  rw [hs]
  dsimp only
  by_cases hp : (dictGet g n).isSome
  · simp only [hp, if_true, Bool.not_false, if_pos]
    cases init with
    | none => exact hs
    | some e =>
      dsimp only
      split_ifs <;> exact (exprPres _ e).1.trans hs
  · simp only [hp, if_false, Bool.not_true, Bool.false_eq_true]
    cases init with
    | none => rfl
    | some e =>
      dsimp only
      split_ifs <;> exact (exprPres _ e).1

theorem paramStepHO (st : AnState) (p : Param) : HO st (paramStep st p) := by
  unfold paramStep
  dsimp only
  split_ifs
  · exact HO_trans (HO_define st p.name p.type) (HO_err _ 0 0 _)
  · exact HO_define st p.name p.type

theorem foldParamsHO (ps : List Param) (st : AnState) :
    HO st (ps.foldl paramStep st) := by
  induction ps generalizing st with
  | nil => exact HO_refl st
  | cons p ps ih => exact HO_trans (paramStepHO st p) (ih (paramStep st p))

/-- A push/work/push/work/pop/pop sandwich, the inner work touching at most
the innermost scope, restores scope stack and signature table exactly. -/
theorem sandwich2 {s m X : AnState} (hfold : HO (push_scope s) m)
    (h : HO (push_scope m) X) :
    (pop_scope (pop_scope X)).scopes = s.scopes ∧
    (pop_scope (pop_scope X)).funcs = s.funcs := by
  have A := pop_after_push h
  constructor
  · show (pop_scope X).scopes.tail = s.scopes
    rw [A.1, hfold.2.1]
    rfl
  · show (pop_scope X).funcs = s.funcs
    rw [A.2.1, hfold.2.2.1]
    rfl

/-- `visit_function` restores the scope stack, the signature table and
`current_ret` exactly. -/
theorem funcExact (st : AnState) (rt name : String) (params : List Param)
    (body : List Stmt) :
    (visitFunction st rt name params body).2.scopes = st.scopes ∧
    (visitFunction st rt name params body).2.funcs = st.funcs ∧
    (visitFunction st rt name params body).2.current_ret = st.current_ret := by
  refine ⟨?_, ?_, rfl⟩
  · exact (sandwich2
      (foldParamsHO params (push_scope { st with current_ret := some rt }))
      (listHO _ body)).1
  · exact (sandwich2
      (foldParamsHO params (push_scope { st with current_ret := some rt }))
      (listHO _ body)).2

theorem HO_of_eq {a b : AnState} (h1 : b.scopes = a.scopes)
    (h2 : b.funcs = a.funcs) (h3 : b.current_ret = a.current_ret) : HO a b :=
  ⟨by rw [h1], by rw [h1], h2, h3⟩

/-- The signature pre-pass touches neither the scope stack nor `current_ret`. -/
theorem collectScopes (l : List Stmt) (st : AnState) :
    (collectFuncs st l).scopes = st.scopes ∧
    (collectFuncs st l).current_ret = st.current_ret := by
  induction l generalizing st with
  | nil => exact ⟨rfl, rfl⟩
  | cons s rest ih =>
    cases s <;> simp only [collectFuncs] <;>
      first
      | (split_ifs <;> exact ih _)
      | exact ih st

/-- The main pass of `visit_program` modifies at most the innermost scope. -/
theorem topHO (l : List Stmt) (st : AnState) : HO st (visitTop st l).2 := by
  induction l generalizing st with
  | nil => exact HO_refl st
  | cons s rest ih =>
    cases s with
    | FunctionDecl rt name params body =>
      have hf := funcExact st rt name params body
      exact HO_trans (HO_of_eq hf.1 hf.2.1 hf.2.2) (ih _)
    | Block ss => exact HO_trans (stmtHO st (.Block ss)) (ih _)
    | VarDecl t n init li c =>
      exact HO_trans (stmtHO st (.VarDecl t n init li c)) (ih _)
    | If cond t e => exact HO_trans (stmtHO st (.If cond t e)) (ih _)
    | While cond b => exact HO_trans (stmtHO st (.While cond b)) (ih _)
    | For i cond p b => exact HO_trans (stmtHO st (.For i cond p b)) (ih _)
    | Print e => exact HO_trans (stmtHO st (.Print e)) (ih _)
    | Return e => exact HO_trans (stmtHO st (.Return e)) (ih _)
    | ExprStmt e => exact HO_trans (stmtHO st (.ExprStmt e)) (ih _)

/-- On a parser-shaped statement list, the main pass folds exactly the
successful top-level `define`s into the innermost scope. -/
theorem topExact (l : List Stmt) (st : AnState) (g : List (String × String))
    (rest : List (List (String × String))) (hs : st.scopes = g :: rest)
    (hsh : l.all noBareBranchDecl = true) :
    (visitTop st l).2.scopes = topFold g l :: rest := by
  induction l generalizing st g with
  | nil => exact hs
  | cons s rest' ih =>
    simp only [List.all_cons, Bool.and_eq_true] at hsh
    obtain ⟨h1, h2⟩ := hsh
    cases s with
    | FunctionDecl rt name params body =>
      exact ih _ _ ((funcExact st rt name params body).1.trans hs) h2
    | VarDecl t n init li c =>
      exact ih _ _ (stmtVarDecl st g rest hs t n init li c) h2
    | Block ss => exact ih _ _ ((stmtExact st (.Block ss) rfl h1).trans hs) h2
    | If cond t e =>
      exact ih _ _ ((stmtExact st (.If cond t e) rfl h1).trans hs) h2
    | While cond b =>
      exact ih _ _ ((stmtExact st (.While cond b) rfl h1).trans hs) h2
    | For i cond p b =>
      exact ih _ _ ((stmtExact st (.For i cond p b) rfl h1).trans hs) h2
    | Print e => exact ih _ _ ((stmtExact st (.Print e) rfl h1).trans hs) h2
    | Return e => exact ih _ _ ((stmtExact st (.Return e) rfl h1).trans hs) h2
    | ExprStmt e =>
      exact ih _ _ ((stmtExact st (.ExprStmt e) rfl h1).trans hs) h2

theorem dictGet_mem {α : Type} (m : List (String × α)) (k : String) (v : α)
    (h : dictGet m k = some v) : (k, v) ∈ m := by
  induction m with
  | nil => simp [dictGet] at h
  | cons p rest ih =>
    obtain ⟨k', v'⟩ := p
    simp only [dictGet] at h
    split_ifs at h with hk
    · subst hk
      cases h
      exact List.mem_cons_self _ _
    · exact List.mem_cons_of_mem _ (ih h)

theorem dictSetAll {α : Type} (p : String × α → Bool) (m : List (String × α))
    (k : String) (v : α) (hm : m.all p = true) (hv : p (k, v) = true) :
    (dictSet m k v).all p = true := by
  induction m with
  | nil => simp [dictSet, hv]
  | cons q rest ih =>
    obtain ⟨k', v'⟩ := q
    simp only [List.all_cons, Bool.and_eq_true] at hm
    simp only [dictSet]
    split_ifs with hk
    · subst hk
      simp only [List.all_cons, Bool.and_eq_true]
      exact ⟨hv, hm.2⟩
    · simp only [List.all_cons, Bool.and_eq_true]
      exact ⟨hm.1, ih hm.2⟩

theorem andE {a b : Bool} (h : (a && b) = true) : a = true ∧ b = true := by
  simp only [Bool.and_eq_true] at h
  exact h

theorem andI {a b : Bool} (h1 : a = true) (h2 : b = true) : (a && b) = true := by
  simp only [Bool.and_eq_true]
  exact ⟨h1, h2⟩

theorem allTail {α : Type} (p : α → Bool) (l : List α) (h : l.all p = true) :
    l.tail.all p = true := by
  cases l with
  | nil => exact h
  | cons a rest => exact (andE h).2

theorem scopesOkEq {X Y : AnState} (h : X.scopes = Y.scopes)
    (hY : scopesOk Y = true) : scopesOk X = true := by
  unfold scopesOk at *
  rw [h]
  exact hY

theorem pushOk (st : AnState) (hso : scopesOk st = true) :
    scopesOk (push_scope st) = true := by
  unfold scopesOk push_scope at *
  simp only [List.all_cons, Bool.and_eq_true]
  exact ⟨rfl, hso⟩

theorem popOk (st : AnState) (hso : scopesOk st = true) :
    scopesOk (pop_scope st) = true :=
  allTail _ _ hso

theorem resolveInValid (ls : List (List (String × String))) (n t : String)
    (hok : ls.all (fun s => s.all fun p => validT p.2) = true)
    (h : resolve.resolveIn ls n = some t) : validT t = true := by
  induction ls with
  | nil => simp [resolve.resolveIn] at h
  | cons s rest ih =>
    simp only [List.all_cons, Bool.and_eq_true] at hok
    simp only [resolve.resolveIn] at h
    cases hg : dictGet s n with
    | some t' =>
      rw [hg] at h
      cases h
      have := List.all_eq_true.mp hok.1 _ (dictGet_mem s n _ hg)
      simpa using this
    | none =>
      rw [hg] at h
      exact ih hok.2 h

theorem resolveValid (st : AnState) (n t : String) (hso : scopesOk st = true)
    (h : resolve st n = some t) : validT t = true :=
  resolveInValid st.scopes n t hso h

theorem funcsRetValid (F : List (String × FuncSig)) (name : String)
    (sig : FuncSig) (hfo : funcsOk F = true) (h : dictGet F name = some sig) :
    validT sig.ret = true := by
  have := List.all_eq_true.mp hfo _ (dictGet_mem F name sig h)
  simpa using this

theorem tyOk_of_valid {t : String} (h : validT t = true) : tyOk t = true := by
  unfold tyOk
  rw [h]
  rfl

theorem defineOk (st : AnState) (n t : String) (hso : scopesOk st = true)
    (ht : validT t = true) : scopesOk (define st n t).2 = true := by
  unfold define
  split
  · exact hso
  · rename_i s rest hsc
    split_ifs with hp
    · exact hso
    · unfold scopesOk at hso ⊢
      rw [hsc] at hso
      simp only [List.all_cons, Bool.and_eq_true] at hso ⊢
      exact ⟨dictSetAll _ s n t hso.1 (by simpa using ht), hso.2⟩

theorem paramStepOk (st : AnState) (p : Param) (hso : scopesOk st = true)
    (hp : validT p.type = true) : scopesOk (paramStep st p) = true := by
  unfold paramStep
  dsimp only
  split_ifs
  · exact defineOk st p.name p.type hso hp
  · exact defineOk st p.name p.type hso hp

theorem foldParamsOk (ps : List Param) (st : AnState) (hso : scopesOk st = true)
    (hps : ps.all (fun p => validT p.type) = true) :
    scopesOk (ps.foldl paramStep st) = true := by
  induction ps generalizing st with
  | nil => exact hso
  | cons p ps ih =>
    simp only [List.all_cons, Bool.and_eq_true] at hps
    exact ih (paramStep st p) (paramStepOk st p hso (by simpa using hps.1)) hps.2

theorem collectFuncsOk (l : List Stmt) (st : AnState)
    (hfo : funcsOk st.funcs = true) (hl : l.all topRetValid = true) :
    funcsOk (collectFuncs st l).funcs = true := by
  induction l generalizing st with
  | nil => exact hfo
  | cons s rest ih =>
    simp only [List.all_cons, Bool.and_eq_true] at hl
    cases s with
    | FunctionDecl rt name params body =>
      simp only [collectFuncs]
      split_ifs with hp
      · exact ih _ hfo hl.2
      · exact ih _ (dictSetAll _ st.funcs name _ hfo (by simpa [topRetValid] using hl.1)) hl.2
    | Block ss => exact ih st hfo hl.2
    | VarDecl t n init li c => exact ih st hfo hl.2
    | If cond t e => exact ih st hfo hl.2
    | While cond b => exact ih st hfo hl.2
    | For i cond p b => exact ih st hfo hl.2
    | Print e => exact ih st hfo hl.2
    | Return e => exact ih st hfo hl.2
    | ExprStmt e => exact ih st hfo hl.2

theorem okInv_push {F : List (String × FuncSig)} {st : AnState}
    (h : okInv F st) : okInv F (push_scope st) := ⟨pushOk st h.1, h.2⟩

theorem okInv_pop {F : List (String × FuncSig)} {st : AnState}
    (h : okInv F st) : okInv F (pop_scope st) := ⟨popOk st h.1, h.2⟩

theorem okInv_of_pres {F : List (String × FuncSig)} {st X : AnState}
    (hp : presFC st X) (h : okInv F st) : okInv F X :=
  ⟨scopesOkEq hp.1 h.1, hp.2.1.trans h.2⟩

mutual

/-- Under the invariant, visiting a good expression yields a fully annotated
node and an inferred type in `{int, float, bool, void, error}`. -/
theorem exprInfer (F : List (String × FuncSig)) (st : AnState) (e : Expr)
    (hinv : okInv F st) (hfo : funcsOk F = true) (he : exprOk F e = true) :
    exprTyped (visitExpr st e).1 = true ∧ tyOk (visitExpr st e).2.1 = true := by
  cases e with
  | Assign name value line col inf =>
    simp only [visitExpr]
    cases hres : resolve st name with
    | none =>
      have hrec := exprInfer F
        (err st line col ("Undeclared variable '" ++ name ++ "'")) value
        hinv hfo he
      exact ⟨andI rfl hrec.1, rfl⟩
    | some symType =>
      have hval := resolveValid st name symType hinv.1 hres
      have hrec := exprInfer F st value hinv hfo he
      by_cases ha : (!assignable symType (visitExpr st value).2.1) = true
      · simp only [ha, if_pos]
        exact ⟨andI rfl hrec.1, rfl⟩
      · simp only [Bool.not_eq_true] at ha
        simp only [ha, Bool.false_eq_true, if_false]
        exact ⟨andI (tyOk_of_valid hval) hrec.1, tyOk_of_valid hval⟩
  | Call name args line col inf =>
    simp only [visitExpr]
    rw [hinv.2]
    simp only [exprOk, Bool.and_eq_true] at he
    obtain ⟨hlen, hargs⟩ := he
    cases hsig : dictGet F name with
    | none =>
      have hrec := argsInfer F
        (err st line col ("Call to undefined function '" ++ name ++ "'")) args
        hinv hfo hargs
      exact ⟨andI rfl hrec, rfl⟩
    | some sig =>
      rw [hsig] at hlen
      have hlen' := of_decide_eq_true hlen
      have hret := funcsRetValid F name sig hfo hsig
      by_cases hn : (!(args.length = sig.params.length)) = true
      · simp only [hn, if_pos]
        have hrec := zipInfer F
          (err st line col ("Function '" ++ name ++ "' expects " ++
            toString sig.params.length ++ " arg(s), got " ++ toString args.length))
          sig.params args name line col hinv hfo hargs hlen'
        exact ⟨andI (tyOk_of_valid hret) hrec, tyOk_of_valid hret⟩
      · simp only [hn, Bool.false_eq_true, if_false]
        have hrec := zipInfer F st sig.params args name line col hinv hfo hargs hlen'
        exact ⟨andI (tyOk_of_valid hret) hrec, tyOk_of_valid hret⟩
  | Lit v kind inf => exact ⟨tyOk_of_valid he, tyOk_of_valid he⟩
  | Var name line col inf =>
    simp only [visitExpr]
    cases hres : resolve st name with
    | none => exact ⟨rfl, rfl⟩
    | some t =>
      have hval := resolveValid st name t hinv.1 hres
      exact ⟨tyOk_of_valid hval, tyOk_of_valid hval⟩
  | Unary op right inf =>
    have hrec := exprInfer F st right hinv hfo he
    simp only [visitExpr]
    split_ifs <;>
      first
      | exact ⟨andI rfl hrec.1, rfl⟩
      | exact ⟨andI hrec.2 hrec.1, hrec.2⟩
  | Binary left op right inf =>
    simp only [exprOk, Bool.and_eq_true] at he
    have h1 := exprInfer F st left hinv hfo he.1
    have h2 := exprInfer F (visitExpr st left).2.2 right
      (okInv_of_pres (exprPres st left) hinv) hfo he.2
    simp only [visitExpr]
    split_ifs <;> exact ⟨andI (andI rfl h1.1) h2.1, rfl⟩
  | Grouping e inf =>
    have hrec := exprInfer F st e hinv hfo he
    simp only [visitExpr]
    exact ⟨andI hrec.2 hrec.1, hrec.2⟩
termination_by sizeOf e

theorem argsInfer (F : List (String × FuncSig)) (st : AnState)
    (args : List Expr) (hinv : okInv F st) (hfo : funcsOk F = true)
    (hargs : exprsOk F args = true) :
    exprsTyped (visitArgsAll st args).1 = true := by
  cases args with
  | nil => rfl
  | cons a rest =>
    simp only [exprsOk, Bool.and_eq_true] at hargs
    have h1 := exprInfer F st a hinv hfo hargs.1
    have h2 := argsInfer F (visitExpr st a).2.2 rest
      (okInv_of_pres (exprPres st a) hinv) hfo hargs.2
    simp only [visitArgsAll]
    exact andI h1.1 h2
termination_by sizeOf args

theorem zipInfer (F : List (String × FuncSig)) (st : AnState)
    (ps : List (String × String)) (args : List Expr) (name : String)
    (li c : Nat) (hinv : okInv F st) (hfo : funcsOk F = true)
    (hargs : exprsOk F args = true) (hlen : args.length ≤ ps.length) :
    exprsTyped (visitZipArgs st ps args name li c).1 = true := by
  cases args with
  | nil => cases ps <;> rfl
  | cons a rest =>
    cases ps with
    | nil => exact (Nat.not_succ_le_zero _ hlen).elim
    | cons p ps2 =>
      simp only [exprsOk, Bool.and_eq_true] at hargs
      have hlen2 : rest.length ≤ ps2.length := by
        simp only [List.length_cons] at hlen
        omega
      have h1 := exprInfer F st a hinv hfo hargs.1
      simp only [visitZipArgs]
      split_ifs with hcomp
      · have h2 := zipInfer F
          (err (visitExpr st a).2.2 li c ("Argument type " ++ (visitExpr st a).2.1 ++
            " incompatible with parameter " ++ p.1 ++ " in call to '" ++ name ++ "'"))
          ps2 rest name li c (okInv_of_pres (exprPres st a) hinv) hfo hargs.2 hlen2
        exact andI h1.1 h2
      · have h2 := zipInfer F (visitExpr st a).2.2 ps2 rest name li c
          (okInv_of_pres (exprPres st a) hinv) hfo hargs.2 hlen2
        exact andI h1.1 h2
termination_by sizeOf args

end

mutual

/-- Under the invariant, visiting a good statement annotates every expression
node under it and preserves the invariant. -/
theorem stmtInfer (F : List (String × FuncSig)) (st : AnState) (s : Stmt)
    (hinv : okInv F st) (hfo : funcsOk F = true) (hs : stmtOk F s = true) :
    stmtTyped (visitStmt st s).1 = true ∧ okInv F (visitStmt st s).2 := by
  cases s with
  | Block ss =>
    simp only [visitStmt]
    have h := listInfer F (push_scope st) ss (okInv_push hinv) hfo hs
    exact ⟨h.1, okInv_pop h.2⟩
  | VarDecl t n init li c =>
    simp only [stmtOk, Bool.and_eq_true] at hs
    obtain ⟨ht, hinit⟩ := hs
    simp only [visitStmt]
    have hd : okInv F (define st n t).2 :=
      ⟨defineOk st n t hinv.1 ht, (HO_define st n t).2.2.1.trans hinv.2⟩
    cases init with
    | none =>
      dsimp only
      refine ⟨rfl, ?_, ?_⟩
      · split_ifs <;> exact hd.1
      · split_ifs <;> exact hd.2
    | some e =>
      dsimp only
      split_ifs
      all_goals
        first
        | exact ⟨(exprInfer F
              (err (define st n t).2 li c ("Redeclaration of '" ++ n ++ "'")) e
              hd hfo hinit).1,
            okInv_of_pres (exprPres
              (err (define st n t).2 li c ("Redeclaration of '" ++ n ++ "'")) e) hd⟩
        | exact ⟨(exprInfer F (define st n t).2 e hd hfo hinit).1,
            okInv_of_pres (exprPres (define st n t).2 e) hd⟩
  | If cond t e =>
    simp only [stmtOk, Bool.and_eq_true] at hs
    obtain ⟨⟨hc, hst⟩, hoe⟩ := hs
    have h1 := exprInfer F st cond hinv hfo hc
    simp only [visitStmt]
    split_ifs
    · have h2 := stmtInfer F
        (err (visitExpr st cond).2.2 0 0 "if condition must be bool") t
        (okInv_of_pres (exprPres st cond) hinv) hfo hst
      have h3 := optStmtInfer F
        (visitStmt (err (visitExpr st cond).2.2 0 0 "if condition must be bool") t).2
        e h2.2 hfo hoe
      exact ⟨andI (andI h1.1 h2.1) h3.1, h3.2⟩
    · have h2 := stmtInfer F (visitExpr st cond).2.2 t
        (okInv_of_pres (exprPres st cond) hinv) hfo hst
      have h3 := optStmtInfer F (visitStmt (visitExpr st cond).2.2 t).2 e
        h2.2 hfo hoe
      exact ⟨andI (andI h1.1 h2.1) h3.1, h3.2⟩
  | While cond b =>
    simp only [stmtOk, Bool.and_eq_true] at hs
    obtain ⟨hc, hb⟩ := hs
    have h1 := exprInfer F st cond hinv hfo hc
    simp only [visitStmt]
    split_ifs
    · have h2 := stmtInfer F
        (err (visitExpr st cond).2.2 0 0 "while condition must be bool") b
        (okInv_of_pres (exprPres st cond) hinv) hfo hb
      exact ⟨andI h1.1 h2.1, h2.2⟩
    · have h2 := stmtInfer F (visitExpr st cond).2.2 b
        (okInv_of_pres (exprPres st cond) hinv) hfo hb
      exact ⟨andI h1.1 h2.1, h2.2⟩
  | For i cond p b =>
    simp only [stmtOk, Bool.and_eq_true] at hs
    obtain ⟨⟨⟨hi, hc⟩, hp2⟩, hb⟩ := hs
    simp only [visitStmt]
    have hri := optStmtInfer F (push_scope st) i (okInv_push hinv) hfo hi
    cases cond with
    | none =>
      dsimp only
      have hrp := optStmtInfer F (visitOptStmt (push_scope st) i).2 p
        hri.2 hfo hp2
      have hrb := stmtInfer F
        (visitOptStmt (visitOptStmt (push_scope st) i).2 p).2 b hrp.2 hfo hb
      exact ⟨andI (andI (andI hri.1 rfl) hrp.1) hrb.1, okInv_pop hrb.2⟩
    | some c0 =>
      dsimp only
      have hc0 := exprInfer F (visitOptStmt (push_scope st) i).2 c0
        hri.2 hfo hc
      split_ifs
      · have hrp := optStmtInfer F
          (err (visitExpr (visitOptStmt (push_scope st) i).2 c0).2.2 0 0
            "for condition must be bool") p
          (okInv_of_pres (exprPres (visitOptStmt (push_scope st) i).2 c0) hri.2)
          hfo hp2
        have hrb := stmtInfer F
          (visitOptStmt
            (err (visitExpr (visitOptStmt (push_scope st) i).2 c0).2.2 0 0
              "for condition must be bool") p).2 b hrp.2 hfo hb
        exact ⟨andI (andI (andI hri.1 hc0.1) hrp.1) hrb.1, okInv_pop hrb.2⟩
      · have hrp := optStmtInfer F
          (visitExpr (visitOptStmt (push_scope st) i).2 c0).2.2 p
          (okInv_of_pres (exprPres (visitOptStmt (push_scope st) i).2 c0) hri.2)
          hfo hp2
        have hrb := stmtInfer F
          (visitOptStmt (visitExpr (visitOptStmt (push_scope st) i).2 c0).2.2 p).2
          b hrp.2 hfo hb
        exact ⟨andI (andI (andI hri.1 hc0.1) hrp.1) hrb.1, okInv_pop hrb.2⟩
  | Print e =>
    simp only [visitStmt]
    have h1 := exprInfer F st e hinv hfo hs
    exact ⟨h1.1, okInv_of_pres (exprPres st e) hinv⟩
  | Return e =>
    simp only [visitStmt]
    cases st.current_ret with
    | none =>
      cases e with
      | none => exact ⟨rfl, hinv⟩
      | some ex =>
        dsimp only
        have h1 := exprInfer F st ex hinv hfo hs
        exact ⟨h1.1, okInv_of_pres (exprPres st ex) hinv⟩
    | some ret =>
      cases e with
      | none =>
        dsimp only
        split_ifs
        · exact ⟨rfl, hinv⟩
        · exact ⟨rfl, hinv⟩
      | some ex =>
        dsimp only
        have h1 := exprInfer F st ex hinv hfo hs
        split_ifs
        · exact ⟨h1.1, okInv_of_pres (exprPres st ex) hinv⟩
        · exact ⟨h1.1, okInv_of_pres (exprPres st ex) hinv⟩
  | ExprStmt e =>
    simp only [visitStmt]
    have h1 := exprInfer F st e hinv hfo hs
    exact ⟨h1.1, okInv_of_pres (exprPres st e) hinv⟩
  | FunctionDecl rt name params body =>
    simp only [stmtOk] at hs
    exact (Bool.false_ne_true hs).elim
termination_by sizeOf s

theorem optStmtInfer (F : List (String × FuncSig)) (st : AnState)
    (o : Option Stmt) (hinv : okInv F st) (hfo : funcsOk F = true)
    (ho : optStmtOk F o = true) :
    optStmtTyped (visitOptStmt st o).1 = true ∧ okInv F (visitOptStmt st o).2 := by
  cases o with
  | none => exact ⟨rfl, hinv⟩
  | some s =>
    simp only [visitOptStmt]
    have h := stmtInfer F st s hinv hfo ho
    exact ⟨h.1, h.2⟩
termination_by sizeOf o

theorem listInfer (F : List (String × FuncSig)) (st : AnState)
    (ss : List Stmt) (hinv : okInv F st) (hfo : funcsOk F = true)
    (hss : stmtsOk F ss = true) :
    stmtsTyped (visitBlockList st ss).1 = true ∧
    okInv F (visitBlockList st ss).2 := by
  cases ss with
  | nil => exact ⟨rfl, hinv⟩
  | cons s rest =>
    simp only [stmtsOk, Bool.and_eq_true] at hss
    cases s with
    | FunctionDecl rt name params body =>
      simp only [stmtOk] at hss
      exact (Bool.false_ne_true hss.1).elim
    | Block ss2 =>
      simp only [visitBlockList]
      have h1 := stmtInfer F st (.Block ss2) hinv hfo hss.1
      have h2 := listInfer F (visitStmt st (.Block ss2)).2 rest h1.2 hfo hss.2
      exact ⟨andI h1.1 h2.1, h2.2⟩
    | VarDecl t n init li c =>
      simp only [visitBlockList]
      have h1 := stmtInfer F st (.VarDecl t n init li c) hinv hfo hss.1
      have h2 := listInfer F (visitStmt st (.VarDecl t n init li c)).2 rest
        h1.2 hfo hss.2
      exact ⟨andI h1.1 h2.1, h2.2⟩
    | If cond t e =>
      simp only [visitBlockList]
      have h1 := stmtInfer F st (.If cond t e) hinv hfo hss.1
      have h2 := listInfer F (visitStmt st (.If cond t e)).2 rest h1.2 hfo hss.2
      exact ⟨andI h1.1 h2.1, h2.2⟩
    | While cond b =>
      simp only [visitBlockList]
      have h1 := stmtInfer F st (.While cond b) hinv hfo hss.1
      have h2 := listInfer F (visitStmt st (.While cond b)).2 rest h1.2 hfo hss.2
      exact ⟨andI h1.1 h2.1, h2.2⟩
    | For i cond p b =>
      simp only [visitBlockList]
      have h1 := stmtInfer F st (.For i cond p b) hinv hfo hss.1
      have h2 := listInfer F (visitStmt st (.For i cond p b)).2 rest
        h1.2 hfo hss.2
      exact ⟨andI h1.1 h2.1, h2.2⟩
    | Print e =>
      simp only [visitBlockList]
      have h1 := stmtInfer F st (.Print e) hinv hfo hss.1
      have h2 := listInfer F (visitStmt st (.Print e)).2 rest h1.2 hfo hss.2
      exact ⟨andI h1.1 h2.1, h2.2⟩
    | Return e =>
      simp only [visitBlockList]
      have h1 := stmtInfer F st (.Return e) hinv hfo hss.1
      have h2 := listInfer F (visitStmt st (.Return e)).2 rest h1.2 hfo hss.2
      exact ⟨andI h1.1 h2.1, h2.2⟩
    | ExprStmt e =>
      simp only [visitBlockList]
      have h1 := stmtInfer F st (.ExprStmt e) hinv hfo hss.1
      have h2 := listInfer F (visitStmt st (.ExprStmt e)).2 rest h1.2 hfo hss.2
      exact ⟨andI h1.1 h2.1, h2.2⟩
termination_by sizeOf ss

end

/-- Under the invariant, visiting a good function declaration annotates its
whole body and preserves the invariant. -/
theorem funcInfer (F : List (String × FuncSig)) (st : AnState)
    (rt name : String) (params : List Param) (body : List Stmt)
    (hinv : okInv F st) (hfo : funcsOk F = true)
    (hps : params.all (fun p => validT p.type) = true)
    (hbody : stmtsOk F body = true) :
    stmtTyped (visitFunction st rt name params body).1 = true ∧
    okInv F (visitFunction st rt name params body).2 := by
  have hinv3 : okInv F
      (params.foldl paramStep (push_scope { st with current_ret := some rt })) :=
    ⟨foldParamsOk params _ (pushOk _ hinv.1) hps,
     (foldParamsHO params _).2.2.1.trans hinv.2⟩
  have hb := listInfer F
    (push_scope (params.foldl paramStep (push_scope { st with current_ret := some rt })))
    body (okInv_push hinv3) hfo hbody
  constructor
  · exact hb.1
  · exact ⟨scopesOkEq (funcExact st rt name params body).1 hinv.1,
      (funcExact st rt name params body).2.1.trans hinv.2⟩

/-- Under the invariant, the main pass over good top-level statements yields
a fully annotated typed AST. -/
theorem topInfer (F : List (String × FuncSig)) (l : List Stmt) (st : AnState)
    (hinv : okInv F st) (hfo : funcsOk F = true)
    (hl : l.all (topOk F) = true) : stmtsTyped (visitTop st l).1 = true := by
  cases l with
  | nil => rfl
  | cons s rest =>
    simp only [List.all_cons, Bool.and_eq_true] at hl
    cases s with
    | FunctionDecl rt name params body =>
      have ht := hl.1
      simp only [topOk, Bool.and_eq_true] at ht
      have hf := funcInfer F st rt name params body hinv hfo ht.1.2 ht.2
      have h2 := topInfer F rest (visitFunction st rt name params body).2
        hf.2 hfo hl.2
      exact andI hf.1 h2
    | Block ss2 =>
      have h1 := stmtInfer F st (.Block ss2) hinv hfo hl.1
      exact andI h1.1 (topInfer F rest (visitStmt st (.Block ss2)).2 h1.2 hfo hl.2)
    | VarDecl t n init li c =>
      have h1 := stmtInfer F st (.VarDecl t n init li c) hinv hfo hl.1
      exact andI h1.1
        (topInfer F rest (visitStmt st (.VarDecl t n init li c)).2 h1.2 hfo hl.2)
    | If cond t e =>
      have h1 := stmtInfer F st (.If cond t e) hinv hfo hl.1
      exact andI h1.1
        (topInfer F rest (visitStmt st (.If cond t e)).2 h1.2 hfo hl.2)
    | While cond b =>
      have h1 := stmtInfer F st (.While cond b) hinv hfo hl.1
      exact andI h1.1
        (topInfer F rest (visitStmt st (.While cond b)).2 h1.2 hfo hl.2)
    | For i cond p b =>
      have h1 := stmtInfer F st (.For i cond p b) hinv hfo hl.1
      exact andI h1.1
        (topInfer F rest (visitStmt st (.For i cond p b)).2 h1.2 hfo hl.2)
    | Print e =>
      have h1 := stmtInfer F st (.Print e) hinv hfo hl.1
      exact andI h1.1 (topInfer F rest (visitStmt st (.Print e)).2 h1.2 hfo hl.2)
    | Return e =>
      have h1 := stmtInfer F st (.Return e) hinv hfo hl.1
      exact andI h1.1 (topInfer F rest (visitStmt st (.Return e)).2 h1.2 hfo hl.2)
    | ExprStmt e =>
      have h1 := stmtInfer F st (.ExprStmt e) hinv hfo hl.1
      exact andI h1.1
        (topInfer F rest (visitStmt st (.ExprStmt e)).2 h1.2 hfo hl.2)
termination_by sizeOf l

end Semantics

/-- An AST with a function declaration nested inside a block: the analyzer
reports it but does not visit it, leaving its literal unannotated. -/
def c4Bad : Program :=
  [.Block [.FunctionDecl "void" "g" [] [.ExprStmt (.Lit (.vint 1) "int" none)]]]

/-- A well-shaped program: a function, a declaration initialised by a call to
it, and a print of an arithmetic expression. -/
def c4Good : Program :=
  [.FunctionDecl "int" "f" [⟨"int", "n"⟩] [.Return (some (.Var "n" 1 1 none))],
   .VarDecl "int" "x" (some (.Call "f" [.Lit (.vint 2) "int" none] 2 5 none)) 2 1,
   .Print (.Binary (.Var "x" 3 7 none) "+" (.Lit (.vint 1) "int" none) none)]

/-- C4 counterexample: the claim quantifies over all analyzed trees including
rejected constructs, but a function declaration nested in a block comes back
untouched — its literal still carries `inferred = none` in the typed AST. -/
theorem c4_nested_function_left_untyped :
    (Semantics.analyze c4Bad).1 =
      [.Block [.FunctionDecl "void" "g" [] [.ExprStmt (.Lit (.vint 1) "int" none)]]] ∧
    Semantics.stmtsTyped (Semantics.analyze c4Bad).1 = false :=
  ⟨rfl, rfl⟩

/-- C4 amended: for every program whose literal kinds and declared types are
language types, with no function declaration below the top level, and whose
calls to functions of the signature table pass at most as many arguments as
the signature has parameters, semantic analysis returns a typed AST in which
EVERY expression node carries `some` inferred type drawn from
`{int, float, bool, void, error}`. -/
theorem c4_every_expression_annotated (prog : Program)
    (h : Semantics.progOk prog = true) :
    Semantics.stmtsTyped (Semantics.analyze prog).1 = true := by
  have hret : prog.all Semantics.topRetValid = true := by
    refine List.all_eq_true.mpr ?_
    intro x hx
    have hx2 := List.all_eq_true.mp h x hx
    cases x <;>
      simp_all [Semantics.topOk, Semantics.topRetValid, Bool.and_eq_true]
  have hfo := Semantics.collectFuncsOk prog ⟨[[]], [], [], none⟩ rfl hret
  have hinv : Semantics.okInv
      (Semantics.collectFuncs ⟨[[]], [], [], none⟩ prog).funcs
      (Semantics.collectFuncs ⟨[[]], [], [], none⟩ prog) :=
    ⟨Semantics.scopesOkEq (Semantics.collectScopes prog ⟨[[]], [], [], none⟩).1 rfl,
     rfl⟩
  exact Semantics.topInfer
    (Semantics.collectFuncs ⟨[[]], [], [], none⟩ prog).funcs prog
    (Semantics.collectFuncs ⟨[[]], [], [], none⟩ prog) hinv hfo h

/-- Witness for the amended C4 at a concrete program. -/
theorem c4_every_expression_annotated_witness :
    Semantics.progOk c4Good = true ∧
    Semantics.stmtsTyped (Semantics.analyze c4Good).1 = true :=
  ⟨rfl, c4_every_expression_annotated c4Good (by rfl)⟩

/-- An AST (never produced by the parser) with a bare `VarDecl` as an `if`
branch: the branch declaration lands in the global scope. -/
def c10Bad : Program :=
  [.If (.Lit (.vbool true) "bool" none) (.VarDecl "int" "x" none 1 1) none]

/-- A parser-shaped program exercising the global scope: a successful
declaration with initializer, a second one, a rejected redeclaration, an `if`
and a function. -/
def c10Good : Program :=
  [.VarDecl "int" "x" (some (.Lit (.vint 1) "int" none)) 1 1,
   .VarDecl "float" "y" none 2 1,
   .VarDecl "int" "x" none 3 1,
   .If (.Lit (.vbool true) "bool" none) (.Print (.Var "x" 4 9 none)) none,
   .FunctionDecl "void" "f" [⟨"int", "n"⟩] [.Return none]]

/-- C10 counterexample to the "symbols are exactly the top-level variable
declarations" half over arbitrary ASTs: an `if` whose branch is a bare
`VarDecl` (a shape the parser cannot emit, since `statement()` never returns
a declaration) defines `x` straight into the global scope, so the single
symbol-table entry lists a symbol that no top-level declaration introduced. -/
theorem c10_branch_decl_pollutes_global :
    Semantics.symtab_to_json (Semantics.analyze c10Bad).2 =
      [(0, [("x", "int")])] ∧
    Semantics.topLevelScope c10Bad = [] :=
  ⟨rfl, rfl⟩

/-- C10: every scope pushed during analysis is popped again, so analysis of
ANY program ends with exactly one scope entry; and for every parser-shaped
program (no bare `VarDecl` down an `if`/`while` spine) the symbol table is
exactly `[(0, g)]` where `g` holds, in order, the top-level variable
declarations whose `define` succeeded. -/
theorem c10_scope_discipline (prog : Program) :
    (Semantics.analyze prog).2.scopes.length = 1 ∧
    (prog.all Semantics.noBareBranchDecl = true →
      Semantics.symtab_to_json (Semantics.analyze prog).2 =
        [(0, Semantics.topLevelScope prog)]) := by
  constructor
  · have h1 := (Semantics.topHO prog
      (Semantics.collectFuncs ⟨[[]], [], [], none⟩ prog)).1
    have h2 := (Semantics.collectScopes prog ⟨[[]], [], [], none⟩).1
    show (Semantics.visitTop
      (Semantics.collectFuncs ⟨[[]], [], [], none⟩ prog) prog).2.scopes.length = 1
    rw [h1, h2]
    rfl
  · intro hsh
    have h2 := (Semantics.collectScopes prog ⟨[[]], [], [], none⟩).1
    have h3 := Semantics.topExact prog
      (Semantics.collectFuncs ⟨[[]], [], [], none⟩ prog) [] [] h2 hsh
    show (Semantics.visitTop
      (Semantics.collectFuncs ⟨[[]], [], [], none⟩ prog) prog).2.scopes.reverse.enum =
      [(0, Semantics.topLevelScope prog)]
    rw [h3]
    rfl

/-- Witness for C10 at a concrete parser-shaped program: one scope, holding
exactly the two successful top-level declarations. -/
theorem c10_scope_discipline_witness :
    (Semantics.analyze c10Good).2.scopes.length = 1 ∧
    Semantics.symtab_to_json (Semantics.analyze c10Good).2 =
      [(0, Semantics.topLevelScope c10Good)] :=
  ⟨(c10_scope_discipline c10Good).1, (c10_scope_discipline c10Good).2 (by rfl)⟩

end Compiler
